import Mathlib

/-!
Shallow embedding of the category-tree engine of sankeygen
(src/src/hibiscus_sankey/cli.py; the earlier src/sankeygen.py differs only
in details noted where relevant), together with proofs about its
aggregation, scaling, pruning, coloring, income-classification and
link-derivation passes.  Monetary amounts are modelled as rationals.
-/

/-- A category path, as the list of its slash-separated segments
(the Python code stores the joined string; for well-formed paths whose
segments contain no separator, splitting and joining are mutually
inverse, so the segment list is a faithful identity). -/
abbrev CatPath := List String

/-- One node of the category tree (class SankeyNode, cli.py:45-77).
The Python object also stores a parent reference: add_child sets it
exactly for nodes whose path has at least two segments, it always points
at the arena node named name.dropLast, and it is never cleared, so it is
represented implicitly by name.dropLast.  The stored flag is_toplevel
(cli.py:53) equals "name has one segment" and never changes, so it is
computed from name.  children holds the keys of the children dict in
insertion order; the values of that dict are the arena nodes with those
names.  inPool records membership in the pool dict SankeyNodePool.nodes:
a node object popped by purge persists (still referenced by parent
pointers and possibly by income_node), which inPool := false models. -/
structure SankeyNode where
  name : CatPath
  children : List CatPath
  value : ℚ
  color : String
  is_income : Bool
  index : Nat
  inPool : Bool
deriving Repr, DecidableEq

/-- A directed, valued link (class SankeyLink, cli.py:80-96); its value
is computed once, at creation (cli.py:84). -/
structure SankeyLink where
  source : CatPath
  target : CatPath
  value : ℚ
deriving Repr, DecidableEq

/-- The node pool (class SankeyNodePool, cli.py:99-160).  arena lists
every node object ever created, in creation order; the Python dict
self.nodes is the sublist of arena members with inPool = true, in that
same order (Python dicts iterate in insertion order, and a purged key is
never re-inserted).  income is the name of the node stored in the
income_node attribute by assign_income_node. -/
structure SankeyNodePool where
  arena : List SankeyNode
  income : Option CatPath
  links : List SankeyLink
deriving Repr, DecidableEq

/-- Find the unique node object with the given full path, purged or not
(dereferencing an object reference such as node.parent or income_node). -/
def lookupNode (a : List SankeyNode) (p : CatPath) : Option SankeyNode :=
  a.find? fun n => decide (n.name = p)

/-- Membership test against the pool dict self.nodes (only un-purged
nodes are keys of the dict). -/
def poolLookup (a : List SankeyNode) (p : CatPath) : Option SankeyNode :=
  a.find? fun n => n.inPool && decide (n.name = p)

/-- Mutate the (unique) node object with the given name in place. -/
def updateNode (a : List SankeyNode) (p : CatPath) (f : SankeyNode → SankeyNode) :
    List SankeyNode :=
  a.map fun n => if n.name = p then f n else n

/-- A freshly constructed SankeyNode (cli.py:46-54). -/
def newNode (p : CatPath) : SankeyNode :=
  { name := p, children := [], value := 0, color := "", is_income := false,
    index := 0, inPool := true }

/-- SankeyNode.add_child (cli.py:56-59): record the child key in the
parent's children dict unless already present; the assignment
child.parent = self is implicit, since the child's name always extends
the parent's name by one segment. -/
def addChild (a : List SankeyNode) (par child : CatPath) : List SankeyNode :=
  updateNode a par fun n =>
    if child ∈ n.children then n else { n with children := n.children ++ [child] }

/-- One iteration of the loop in SankeyNodePool.get_node (cli.py:106-113):
ensure the node for path.take (i+1) exists in the pool, creating it and
linking it under its parent path.take i when that is nonempty. -/
def ensureStep (path : CatPath) (a : List SankeyNode) (i : Nat) : List SankeyNode :=
  let par := path.take i
  let sub := path.take (i + 1)
  if (poolLookup a sub).isSome then a
  else
    let a1 := a ++ [newNode sub]
    if par = [] then a1 else addChild a1 par sub

/-- SankeyNodePool.get_node (cli.py:104-114): walk the ordered nonempty
path-segment ends, creating every missing node on the way. -/
def get_node (a : List SankeyNode) (path : CatPath) : List SankeyNode :=
  (List.range path.length).foldl (ensureStep path) a

/-- The statement node.value += amount. -/
def bumpValue (a : List SankeyNode) (p : CatPath) (amt : ℚ) : List SankeyNode :=
  updateNode a p fun n => { n with value := n.value + amt }

/-- The accumulation loop of parse_csv (cli.py:187-189) for one row:
for every ordered path-segment end of the category path, get_node it and
add the amount to its value. -/
def ingestTx (a : List SankeyNode) (tx : CatPath × ℚ) : List SankeyNode :=
  (List.range tx.1.length).foldl
    (fun b i => bumpValue (get_node b (tx.1.take (i + 1))) (tx.1.take (i + 1)) tx.2) a

/-- Ingestion of a whole transaction sequence into a fresh pool: the row
loop of parse_csv (cli.py:174-189), with the CSV decoding (an excluded
collaborator per the spec) already done. -/
def ingest (txs : List (CatPath × ℚ)) : List SankeyNode :=
  txs.foldl ingestTx []

/-- SankeyNodePool.div (cli.py:129-131): divide every pool member's
value by the divisor (purged node objects are not in self.nodes.values()
and are untouched). -/
def divValues (d : ℚ) (a : List SankeyNode) : List SankeyNode :=
  a.map fun n => if n.inPool then { n with value := n.value / d } else n

/-- The keys of the pool dict self.nodes, in iteration order. -/
def poolNames (a : List SankeyNode) : List CatPath :=
  (a.filter (·.inPool)).map (·.name)

/-- One body execution of the loop in SankeyNodePool.purge
(cli.py:122-127): if the snapshotted node's absolute value is at or
below the threshold, detach it from its parent's children dict (the
parent object exists exactly when the name has two or more segments, and
rm_child is a no-op when the key is absent) and pop it from the pool.
The node object is resolved by its unique name; its fields are read at
execution time, as in Python. -/
def purgeStep (t : ℚ) (a : List SankeyNode) (p : CatPath) : List SankeyNode :=
  match lookupNode a p with
  | none => a
  | some n =>
    if |n.value| ≤ t then
      let a1 :=
        if 2 ≤ n.name.length then
          updateNode a n.name.dropLast fun m => { m with children := m.children.erase n.name }
        else a
      updateNode a1 p fun m => { m with inPool := false }
    else a

/-- SankeyNodePool.purge (cli.py:122-127): iterate over a snapshot
(list(self.nodes.items())) of the pool taken before any removal. -/
def purge (t : ℚ) (a : List SankeyNode) : List SankeyNode :=
  (poolNames a).foldl (purgeStep t) a

/-- ColorPalette.COLOR_PALETTE (cli.py:12-28). -/
def COLOR_PALETTE : List String :=
  ["4E79A7", "F28E2B", "E15759", "76B7B2", "59A14F",
   "EDC948", "B07AA1", "FF9DA7", "9C755F", "BAB0AC",
   "8CD17D", "FF9F80", "A0CBE8", "C9C9C9", "D37295"]

/-- The color returned by the k-th call of ColorPalette.pick_one
(cli.py:33-37): round-robin through the fixed palette. -/
def pickColor (k : Nat) : String :=
  COLOR_PALETTE.getD (k % COLOR_PALETTE.length) ""

/-- SankeyNode.do_recursive (cli.py:65-68): apply f to every node of the
subtree reached through the children dicts, children before self.  The
fuel argument bounds the recursion depth; any fuel at least the longest
reachable chain gives the Python behaviour (Python recursion is
unbounded, and the child-extends-parent invariant makes every chain
finite).  Note that the earlier sankeygen.py:66-69 version applies f
only to the direct children and self; all theorems below are about the
cli.py version. -/
def do_recursive (f : SankeyNode → SankeyNode) :
    Nat → List SankeyNode → CatPath → List SankeyNode
  | 0, a, _ => a
  | fuel + 1, a, p =>
    match lookupNode a p with
    | none => a
    | some n => updateNode (n.children.foldl (do_recursive f fuel) a) p f

/-- SankeyNodePool.assign_colors (cli.py:133-137): for each top-level
pool node in iteration order, pick the next palette color and set it on
the node's whole reachable subtree. -/
def assign_colors (a : List SankeyNode) : List SankeyNode :=
  (((a.filter fun n => n.inPool && decide (n.name.length = 1)).map (·.name)).enum).foldl
    (fun b kp => do_recursive (fun n => { n with color := pickColor kp.1 }) b.length b kp.2) a

/-- SankeyNodePool.assign_indices (cli.py:139-141): enumerate the pool
in iteration order and store the position in each node. -/
def assign_indices (a : List SankeyNode) : List SankeyNode :=
  ((poolNames a).enum).foldl
    (fun b kp => updateNode b kp.2 fun n => { n with index := kp.1 }) a

/-- The selection expression of assign_income_node (cli.py:144):
sorted(self.nodes.values(), key=lambda x: x.value)[-1].  Python's sorted
is a stable ascending sort, hence agrees with insertion sort, and [-1]
is the last element; on the empty pool the subscript raises IndexError,
modelled by none. -/
def incomeChoice (l : List SankeyNode) : Option SankeyNode :=
  (List.insertionSort (fun x y => x.value ≤ y.value) l).getLast?

/-- SankeyNodePool.assign_income_node (cli.py:143-146): pick the node
with maximal value (ties to the last in pool order), mark its reachable
subtree as income, and remember it as income_node.  The IndexError
raised on an empty pool is modelled by returning none. -/
def assign_income_node (p : SankeyNodePool) : Option SankeyNodePool :=
  match incomeChoice (p.arena.filter (·.inPool)) with
  | none => none
  | some inode =>
    some { p with
            arena := do_recursive (fun n => { n with is_income := true })
                        p.arena.length p.arena inode.name,
            income := some inode.name }

/-- SankeyLink.__init__ (cli.py:81-84): the stored value is
abs(target.value if not target.is_income else source.value). -/
def mkLink (source target : SankeyNode) : SankeyLink :=
  { source := source.name, target := target.name,
    value := |if target.is_income then source.value else target.value| }

/-- Dereference node.parent: the reference is set by add_child exactly
for nodes whose path has at least two segments and always points at the
arena node object named name.dropLast (it survives that node's purge). -/
def parentOf (a : List SankeyNode) (n : SankeyNode) : Option SankeyNode :=
  if 2 ≤ n.name.length then lookupNode a n.name.dropLast else none

/-- The loop body of create_links (cli.py:149-160) for one pool node:
an income node links to its parent if it has one and is skipped
otherwise; a non-income node receives a link from its parent if it has
one and from income_node otherwise.  The none fallbacks for a missing
parent object or missing income_node are unreachable in this program:
every created node's ancestors are created first and never leave the
arena, and income_node is set whenever the pool was nonempty. -/
def linkFor (a : List SankeyNode) (income : Option CatPath) (node : SankeyNode) :
    Option SankeyLink :=
  if node.is_income then
    match parentOf a node with
    | some par => some (mkLink node par)
    | none => none
  else
    match parentOf a node with
    | some par => some (mkLink par node)
    | none =>
      match income.bind (lookupNode a) with
      | some inode => some (mkLink inode node)
      | none => none

/-- SankeyNodePool.create_links (cli.py:148-160): one pass over the pool
in iteration order, appending each produced link. -/
def create_links (p : SankeyNodePool) : SankeyNodePool :=
  { p with links := p.links ++ (p.arena.filter (·.inPool)).filterMap (linkFor p.arena p.income) }

/-- parse_csv (cli.py:163-192) restricted to the core: ingest the
decoded (category path, amount) pairs into a fresh pool, then run
assign_income_node (which raises on an empty pool). -/
def parse_csv (txs : List (CatPath × ℚ)) : Option SankeyNodePool :=
  assign_income_node { arena := ingest txs, income := none, links := [] }

/-- The stages of main (cli.py:249-254) before create_links:
pool.div(args.div); pool.purge(args.threshold); pool.assign_colors();
pool.assign_indices().  (pool.dump() only prints.) -/
def pipelinePrep (txs : List (CatPath × ℚ)) (d t : ℚ) : Option SankeyNodePool :=
  (parse_csv txs).map fun p =>
    { p with arena := assign_indices (assign_colors (purge t (divValues d p.arena))) }

/-- The full pipeline of main (cli.py:249-255). -/
def mainRun (txs : List (CatPath × ℚ)) (d t : ℚ) : Option SankeyNodePool :=
  (pipelinePrep txs d t).map create_links

/-- Of a candidate and an optional later-seen candidate, the one a stable
ascending sort puts last: the later one wins ties. -/
def chooseLater (a : SankeyNode) : Option SankeyNode → SankeyNode
  | none => a
  | some b => if a.value ≤ b.value then b else a

/-- The element of maximal value, ties resolved towards the later
position in the list. -/
def lastMax : List SankeyNode → Option SankeyNode
  | [] => none
  | a :: l => some (chooseLater a (lastMax l))

/-- The empty pool, used as a default when destructuring pipeline
results at concrete inputs. -/
def emptyPool : SankeyNodePool := { arena := [], income := none, links := [] }

/-- Sample input for exercising income classification before scaling and
pruning: one big positive category and one bigger-magnitude negative one. -/
def txsPreclass : List (CatPath × ℚ) := [(["A"], 100), (["B"], -200)]

/-- The pool produced by the full pipeline on txsPreclass with divisor 1
and threshold 150 (which prunes the designated income node A). -/
def poolPreclass : SankeyNodePool := (mainRun txsPreclass 1 150).getD emptyPool

/-- The pool on txsPreclass (divisor 1, threshold 150) just before
create_links runs: its links list is still empty. -/
def poolPrepPreclass : SankeyNodePool := (pipelinePrep txsPreclass 1 150).getD emptyPool

/-- Sample input whose income root A/B is a non-top-level node with a
non-income parent A of different magnitude. -/
def txsDeepIncome : List (CatPath × ℚ) := [(["A", "B"], 100), (["A", "C"], -5)]

/-- The pool produced by the full pipeline on txsDeepIncome with divisor
1 and threshold 0. -/
def poolDeepIncome : SankeyNodePool := (mainRun txsDeepIncome 1 0).getD emptyPool

/-- The pool on txsDeepIncome (divisor 1, threshold 0) just before
create_links runs. -/
def poolPrepDeepIncome : SankeyNodePool := (pipelinePrep txsDeepIncome 1 0).getD emptyPool

/-- The worked example of the spec: a salary inflow and two expense
categories. -/
def txsExample : List (CatPath × ℚ) :=
  [(["Income", "Salary"], 3000), (["Food", "Groceries"], -200),
   (["Food", "Restaurants"], -50)]

/-- The arena node named A/B of poolDeepIncome (its income root, which
has a parent). -/
def nodeDeepAB : SankeyNode := (lookupNode poolDeepIncome.arena ["A", "B"]).getD (newNode [])

/-- The arena node named A of poolDeepIncome (the non-income parent of
the income root). -/
def nodeDeepA : SankeyNode := (lookupNode poolDeepIncome.arena ["A"]).getD (newNode [])

/-- Transactions that orphan a surviving node: A/B/C and A/D survive a
purge at threshold 20 but their common ancestor chain loses A/B
(value 10), so A/B/C is no longer reachable from the top node A. -/
def txsOrphan : List (CatPath × ℚ) :=
  [(["A", "B", "C"], 200), (["A", "B"], -190), (["A", "D"], 50)]

/-- The arena on txsOrphan right before assign_colors runs in main
(after parse_csv, div 1 and purge 20). -/
def arenaOrphan : List SankeyNode :=
  purge 20 (divValues 1 ((parse_csv txsOrphan).getD emptyPool).arena)

/-- A small arena whose surviving nodes form unbroken parent chains: a
three-node chain A, A/B, A/B/C plus a second top-level node B. -/
def arenaChain : List SankeyNode :=
  [{ name := ["A"], children := [["A", "B"]], value := 10, color := "",
     is_income := false, index := 0, inPool := true },
   { name := ["A", "B"], children := [["A", "B", "C"]], value := 5, color := "",
     is_income := false, index := 0, inPool := true },
   { name := ["A", "B", "C"], children := [], value := 3, color := "",
     is_income := false, index := 0, inPool := true },
   { name := ["B"], children := [], value := 7, color := "",
     is_income := false, index := 0, inPool := true }]

/-- Whether the node named c is removed by a purge at threshold t: it is
a pool member whose absolute value is at or below t. -/
def prunedBy (a : List SankeyNode) (t : ℚ) (c : CatPath) : Bool :=
  match lookupNode a c with
  | some m => m.inPool && decide (|m.value| ≤ t)
  | none => false

/-- The pointwise effect of purge on one node: pool membership is kept
exactly when the absolute value exceeds the threshold, and the children
keys of nodes removed by this purge are dropped; all other fields are
untouched. -/
def purgeT (a : List SankeyNode) (t : ℚ) (n : SankeyNode) : SankeyNode :=
  { n with
    inPool := n.inPool && !decide (|n.value| ≤ t),
    children := n.children.filter fun c => !prunedBy a t c }

/-- The pointwise effect of the purge loop after it has processed the
snapshot keys listed in done. -/
def purgeTpart (a : List SankeyNode) (t : ℚ) (done : List CatPath) (n : SankeyNode) :
    SankeyNode :=
  { n with
    inPool := n.inPool && !(decide (n.name ∈ done) && decide (|n.value| ≤ t)),
    children := n.children.filter fun c => !(decide (c ∈ done) && prunedBy a t c) }

/-- The structural well-formedness invariant of every pool this program
builds: node names are unique keys, no name is empty, every children key
extends its owner's name by exactly one segment, and no children list
repeats a key. -/
def WFpool (a : List SankeyNode) : Prop :=
  (a.map (·.name)).Nodup ∧
  (∀ n ∈ a, n.name ≠ []) ∧
  (∀ n ∈ a, ∀ c ∈ n.children,
    c.take n.name.length = n.name ∧ c.length = n.name.length + 1) ∧
  (∀ n ∈ a, n.children.Nodup)

instance (a : List SankeyNode) : Decidable (WFpool a) := by
  unfold WFpool
  exact inferInstance

/-- The value of the node with the given path, if any. -/
def nodeVal (b : List SankeyNode) (p : CatPath) : Option ℚ :=
  (lookupNode b p).map (·.value)

/-- The names visited by do_recursive started at p, computed from the
child structure alone (post-order, so p itself comes last). -/
def reachNames : Nat → List SankeyNode → CatPath → List CatPath
  | 0, _, _ => []
  | fuel + 1, a, p =>
    match lookupNode a p with
    | none => []
    | some n =>
      (n.children.foldl (fun acc c => acc ++ reachNames fuel a c) []) ++ [p]

/-- Recolor one node according to an assignment of palette indices to
paths. -/
def colorMark (M : CatPath → Option Nat) (n : SankeyNode) : SankeyNode :=
  match M n.name with
  | some k => { n with color := pickColor k }
  | none => n

/-- The keys of the top-level pool nodes, in iteration order: the list
assign_colors walks with its rotating palette. -/
def topsNames (a : List SankeyNode) : List CatPath :=
  (a.filter fun n => n.inPool && decide (n.name.length = 1)).map (·.name)

/-- The palette-index assignment accumulated by assign_colors: each
processed (index, top key) pair overwrites the entries of the top's
reachable subtree. -/
def markFold (a : List SankeyNode) (fuel : Nat) (ts : List (Nat × CatPath))
    (M : CatPath → Option Nat) : CatPath → Option Nat :=
  ts.foldl (fun M kp => fun c => if c ∈ reachNames fuel a kp.2 then some kp.1 else M c) M

/-- The sum of the amounts of the transactions whose category path has p
as a path-segment end (the node p itself or any descendant). -/
def sumAmt (txs : List (CatPath × ℚ)) (p : CatPath) : ℚ :=
  ((txs.filter fun tx => decide (tx.1.take p.length = p)).map (·.2)).sum

/-
Theorems.  Rat arithmetic is unsealed so that concrete pipeline runs
evaluate inside decide.
-/

unseal Rat.add Rat.mul Rat.sub Rat.inv Rat.ofScientific

theorem getLast?_cons_of_ne_nil {l : List SankeyNode} (h : l ≠ []) (b : SankeyNode) :
    (b :: l).getLast? = l.getLast? := by
  obtain ⟨c, m, rfl⟩ := List.exists_cons_of_ne_nil h
  exact List.getLast?_cons_cons ..

theorem sorted_head_le_getLast :
    ∀ (l : List SankeyNode) (b g : SankeyNode),
      List.Sorted (fun x y : SankeyNode => x.value ≤ y.value) (b :: l) →
      (b :: l).getLast? = some g → b.value ≤ g.value := by
  intro l
  induction l with
  | nil => intro b g _ hg; simp at hg; subst hg; exact le_refl _
  | cons c m ih =>
    intro b g hs hg
    rw [List.getLast?_cons_cons] at hg
    have hbc : b.value ≤ c.value := (List.rel_of_sorted_cons hs c (by simp))
    exact le_trans hbc (ih c g hs.of_cons hg)

theorem sorted_all_le_getLast :
    ∀ (l : List SankeyNode) (x g : SankeyNode),
      List.Sorted (fun x y : SankeyNode => x.value ≤ y.value) l →
      x ∈ l → l.getLast? = some g → x.value ≤ g.value := by
  intro l
  induction l with
  | nil => intro x g _ hx; simp at hx
  | cons b m ih =>
    intro x g hs hx hg
    rcases List.mem_cons.mp hx with rfl | hx
    · exact sorted_head_le_getLast m x g hs hg
    · have hm : m ≠ [] := by rintro rfl; simp at hx
      rw [getLast?_cons_of_ne_nil hm] at hg
      exact ih x g hs.of_cons hx hg

theorem orderedInsert_ne_nil (a : SankeyNode) (l : List SankeyNode) :
    List.orderedInsert (fun x y : SankeyNode => x.value ≤ y.value) a l ≠ [] := by
  cases l with
  | nil => simp
  | cons b m =>
    by_cases h : a.value ≤ b.value <;> simp [List.orderedInsert, h]

theorem getLast?_orderedInsert :
    ∀ (l : List SankeyNode),
      List.Sorted (fun x y : SankeyNode => x.value ≤ y.value) l →
      ∀ a : SankeyNode,
        (List.orderedInsert (fun x y : SankeyNode => x.value ≤ y.value) a l).getLast? =
          some (chooseLater a l.getLast?) := by
  intro l
  induction l with
  | nil => intro _ a; simp [List.orderedInsert, chooseLater]
  | cons b m ih =>
    intro hs a
    by_cases h : a.value ≤ b.value
    · rw [List.orderedInsert, if_pos h, List.getLast?_cons_cons]
      cases hg : (b :: m).getLast? with
      | none => simp at hg
      | some g =>
        have : a.value ≤ g.value := le_trans h (sorted_head_le_getLast m b g hs hg)
        simp [chooseLater, this]
    · rw [List.orderedInsert, if_neg h,
        getLast?_cons_of_ne_nil (orderedInsert_ne_nil a m), ih hs.of_cons a]
      cases m with
      | nil => simp [chooseLater, h]
      | cons c m' => rw [List.getLast?_cons_cons]

theorem incomeChoice_eq_lastMax (l : List SankeyNode) : incomeChoice l = lastMax l := by
  induction l with
  | nil => rfl
  | cons a l ih =>
    haveI : IsTotal SankeyNode (fun x y : SankeyNode => x.value ≤ y.value) :=
      ⟨fun x y => le_total x.value y.value⟩
    haveI : IsTrans SankeyNode (fun x y : SankeyNode => x.value ≤ y.value) :=
      ⟨fun _ _ _ h1 h2 => le_trans h1 h2⟩
    rw [incomeChoice, List.insertionSort,
      getLast?_orderedInsert _ (List.sorted_insertionSort _ l) a]
    rw [incomeChoice] at ih
    rw [ih, lastMax]

theorem incomeChoice_is_max (l : List SankeyNode) (x inode : SankeyNode)
    (hx : x ∈ l) (h : incomeChoice l = some inode) : x.value ≤ inode.value := by
  haveI : IsTotal SankeyNode (fun x y : SankeyNode => x.value ≤ y.value) :=
    ⟨fun x y => le_total x.value y.value⟩
  haveI : IsTrans SankeyNode (fun x y : SankeyNode => x.value ≤ y.value) :=
    ⟨fun _ _ _ h1 h2 => le_trans h1 h2⟩
  exact sorted_all_le_getLast _ x inode (List.sorted_insertionSort _ l)
    ((List.perm_insertionSort _ l).mem_iff.mpr hx) h

theorem lastMax_eq_none_iff (l : List SankeyNode) : lastMax l = none ↔ l = [] := by
  cases l with
  | nil => simp [lastMax]
  | cons a l => simp [lastMax]

/-- C9 (amended): when several pool nodes share the maximum value at
income-classification time, the selected node is the LAST such node in
the global key (insertion) ordering, not the first: the selection
decomposes the pool as pre ++ selected :: post with everything before it
of value at most the selected value and everything after it of strictly
smaller value. -/
theorem c9_tie_breaks_to_last (l : List SankeyNode) (inode : SankeyNode)
    (h : incomeChoice l = some inode) :
    ∃ pre post, l = pre ++ inode :: post ∧
      (∀ x ∈ pre, x.value ≤ inode.value) ∧ (∀ x ∈ post, x.value < inode.value) := by
  rw [incomeChoice_eq_lastMax] at h
  induction l generalizing inode with
  | nil => simp [lastMax] at h
  | cons a l ih =>
    rw [lastMax] at h
    cases hl : lastMax l with
    | none =>
      have hnil := (lastMax_eq_none_iff l).mp hl
      subst hnil
      rw [hl] at h
      simp [chooseLater] at h
      exact ⟨[], [], by simp [h], by simp, by simp⟩
    | some b =>
      rw [hl] at h
      obtain ⟨pre, post, hsplit, hpre, hpost⟩ := ih b hl
      by_cases hab : a.value ≤ b.value
      · have : inode = b := by simpa [chooseLater, hab] using h.symm
        subst this
        exact ⟨a :: pre, post, by simp [hsplit], by
          intro x hx
          rcases List.mem_cons.mp hx with rfl | hx
          · exact hab
          · exact hpre x hx, hpost⟩
      · have : inode = a := by simpa [chooseLater, hab] using h.symm
        subst this
        refine ⟨[], l, by simp, by simp, ?_⟩
        intro x hx
        have hb : b.value < inode.value := lt_of_not_le hab
        have : x.value ≤ b.value := by
          subst hsplit
          rcases List.mem_append.mp hx with hx | hx
          · exact hpre x hx
          · rcases List.mem_cons.mp hx with rfl | hx
            · exact le_refl _
            · exact le_of_lt (hpost x hx)
        exact lt_of_le_of_lt this hb

/-- Witness for c9_tie_breaks_to_last: a two-node pool with equal
values, where the second node is selected. -/
theorem c9_tie_breaks_to_last_witness :
    incomeChoice ((ingest [(["A"], 100), (["B"], 100)]).filter (·.inPool)) =
      some ⟨["B"], [], 100, "", false, 0, true⟩ ∧
    ∃ pre post,
      (ingest [(["A"], 100), (["B"], 100)]).filter (·.inPool) =
        pre ++ (⟨["B"], [], 100, "", false, 0, true⟩ : SankeyNode) :: post ∧
      (∀ x ∈ pre, x.value ≤ (⟨["B"], [], 100, "", false, 0, true⟩ : SankeyNode).value) ∧
      (∀ x ∈ post, x.value < (⟨["B"], [], 100, "", false, 0, true⟩ : SankeyNode).value) :=
  ⟨by decide, c9_tie_breaks_to_last _ _ (by decide)⟩

/-- C9 (counterexample): on two equal-valued top-level nodes A (created
first) and B, income classification selects B, the LAST node in key
order with the maximum value, not the first (A). -/
theorem c9_first_in_key_order_cex :
    (parse_csv [(["A"], 100), (["B"], 100)]).map (·.income) = some (some ["B"]) ∧
    (ingest [(["A"], 100), (["B"], 100)]).map (fun n => (n.name, n.value, n.inPool)) =
      [(["A"], 100, true), (["B"], 100, true)] ∧
    (["B"] : CatPath) ≠ ["A"] := by
  refine ⟨by decide, by decide, by decide⟩

/-- C2 (counterexample): in the full pipeline run on transactions
A ↦ 100, B ↦ -200 with divisor 1 and threshold 150, the designated
income root is A — but A is pruned, and the surviving node set is
exactly {B}; so the income root is not the maximum-value node of the
surviving post-pruning set (indeed it is not a surviving node at all),
because income classification runs inside parse_csv, before scaling and
pruning. -/
theorem c2_income_after_pruning_cex :
    (mainRun txsPreclass 1 150).map (·.income) = some (some ["A"]) ∧
    (mainRun txsPreclass 1 150).map (fun p => poolNames p.arena) = some [["B"]] ∧
    (mainRun txsPreclass 1 150).map (fun p => p.arena.map fun n => (n.name, n.inPool, n.value))
      = some [(["A"], false, 100), (["B"], true, -200)] :=
  ⟨by decide, by decide, by decide⟩

/-- C2 (amended): the income root is designated inside parse_csv, on the
post-ingestion, pre-scaling, pre-pruning pool: in every successful
pipeline run the recorded income name is the name of the maximal-value
node of the freshly ingested pool (ties to last in key order), whatever
the divisor and threshold later do to the pool. -/
theorem c2_income_classified_before_scaling (txs : List (CatPath × ℚ)) (d t : ℚ)
    (p : SankeyNodePool) (h : mainRun txs d t = some p) :
    ∃ inode, incomeChoice ((ingest txs).filter (·.inPool)) = some inode ∧
      p.income = some inode.name ∧
      ∀ m ∈ (ingest txs).filter (·.inPool), m.value ≤ inode.value := by
  rw [mainRun, pipelinePrep, parse_csv, assign_income_node] at h
  cases hic : incomeChoice ((ingest txs).filter (·.inPool)) with
  | none =>
    rw [show ((⟨ingest txs, none, []⟩ : SankeyNodePool).arena.filter (·.inPool))
        = (ingest txs).filter (·.inPool) from rfl, hic] at h
    simp at h
  | some inode =>
    rw [show ((⟨ingest txs, none, []⟩ : SankeyNodePool).arena.filter (·.inPool))
        = (ingest txs).filter (·.inPool) from rfl, hic] at h
    simp [create_links] at h
    refine ⟨inode, rfl, ?_, fun m hm => incomeChoice_is_max _ m inode hm hic⟩
    rw [← h]

/-- Witness for c2_income_classified_before_scaling at the concrete
pipeline run of c2_income_after_pruning_cex. -/
theorem c2_income_classified_before_scaling_witness :
    mainRun txsPreclass 1 150 = some poolPreclass ∧
    ∃ inode, incomeChoice ((ingest txsPreclass).filter (·.inPool)) = some inode ∧
      poolPreclass.income = some inode.name ∧
      ∀ m ∈ (ingest txsPreclass).filter (·.inPool), m.value ≤ inode.value :=
  ⟨by decide, c2_income_classified_before_scaling txsPreclass 1 150 poolPreclass (by decide)⟩

/-- C10: on an input with zero transactions the pool is empty, and income
classification (reached at the end of parse_csv) signals an error
instead of returning a pool: parse_csv, and hence the whole pipeline,
returns none (modelling the IndexError raised by the empty-list
subscript in assign_income_node). -/
theorem c10_empty_input_raises :
    parse_csv [] = none ∧ ∀ d t : ℚ, mainRun [] d t = none := by
  refine ⟨rfl, fun d t => ?_⟩
  rw [mainRun, pipelinePrep, show parse_csv [] = none from rfl]
  rfl

theorem lookupNode_mem {a : List SankeyNode} {p : CatPath} {m : SankeyNode}
    (h : lookupNode a p = some m) : m ∈ a ∧ m.name = p := by
  rw [lookupNode] at h
  refine ⟨List.mem_of_find?_eq_some h, ?_⟩
  have h1 := List.find?_some h
  simpa using h1

theorem lookupNode_isSome_of_mem_names {a : List SankeyNode} {p : CatPath}
    (h : p ∈ a.map (·.name)) : (lookupNode a p).isSome := by
  obtain ⟨n, hn, he⟩ := List.mem_map.mp h
  rw [lookupNode, List.find?_isSome]
  exact ⟨n, hn, by simp [he]⟩

theorem lookupNode_eq_some_of_mem {a : List SankeyNode} {n : SankeyNode}
    (hnd : (a.map (·.name)).Nodup) (hn : n ∈ a) : lookupNode a n.name = some n := by
  induction a with
  | nil => cases hn
  | cons m a ih =>
    rw [List.map_cons, List.nodup_cons] at hnd
    rcases List.mem_cons.mp hn with rfl | hn
    · simp [lookupNode, List.find?]
    · have hne : ¬(m.name = n.name) := fun he =>
        hnd.1 (he ▸ List.mem_map.mpr ⟨n, hn, rfl⟩)
      simpa [lookupNode, List.find?, hne] using ih hnd.2 hn

theorem linkFor_isSome_iff {a : List SankeyNode} {inc : Option CatPath} {n : SankeyNode}
    (hnn : n.name ≠ [])
    (hpar : 2 ≤ n.name.length → (lookupNode a n.name.dropLast).isSome)
    (hinc : (inc.bind (lookupNode a)).isSome) :
    (linkFor a inc n).isSome = !(n.is_income && decide (n.name.length = 1)) := by
  have hlen : 1 ≤ n.name.length := by
    cases hl : n.name with
    | nil => exact absurd hl hnn
    | cons s r => simp [hl]
  by_cases h2 : 2 ≤ n.name.length
  · have h1 : ¬(n.name.length = 1) := by omega
    obtain ⟨par, hp⟩ := Option.isSome_iff_exists.mp (hpar h2)
    cases hi : n.is_income <;>
      simp [linkFor, parentOf, h2, hp, hi, h1, mkLink]
  · have h1 : n.name.length = 1 := by omega
    cases hi : n.is_income
    · obtain ⟨inode, hp⟩ := Option.isSome_iff_exists.mp hinc
      simp [linkFor, parentOf, h2, hp, hi, h1, mkLink]
    · simp [linkFor, parentOf, h2, hi, h1]

theorem filterMap_linkFor_length {a : List SankeyNode} {inc : Option CatPath}
    (l : List SankeyNode)
    (h1 : ∀ n ∈ l, n.name ≠ [])
    (h2 : ∀ n ∈ l, 2 ≤ n.name.length → (lookupNode a n.name.dropLast).isSome)
    (h3 : (inc.bind (lookupNode a)).isSome) :
    (l.filterMap (linkFor a inc)).length
      + (l.filter fun n => n.is_income && decide (n.name.length = 1)).length
      = l.length := by
  induction l with
  | nil => simp
  | cons n l ih =>
    have hs := linkFor_isSome_iff (h1 n (by simp)) (h2 n (by simp)) h3
    have ihl := ih (fun m hm => h1 m (by simp [hm])) (fun m hm => h2 m (by simp [hm]))
    rw [List.filterMap_cons, List.filter_cons]
    cases hlf : linkFor a inc n with
    | none =>
      rw [hlf] at hs
      have hs2 : (n.is_income && decide (n.name.length = 1)) = true := by
        cases hb : (n.is_income && decide (n.name.length = 1)) with
        | true => rfl
        | false => rw [hb] at hs; simp at hs
      rw [if_pos hs2]
      simp only [List.length_cons]
      omega
    | some lk =>
      rw [hlf] at hs
      have hs2 : (n.is_income && decide (n.name.length = 1)) = false := by
        cases hb : (n.is_income && decide (n.name.length = 1)) with
        | true => rw [hb] at hs; simp at hs
        | false => rfl
      rw [if_neg (by simp [hs2])]
      simp only [List.length_cons]
      omega

/-- C3 (counterexample): on the single transaction A/B ↦ 100, the income
root is A/B, a non-top-level node with a parent, and it emits a link
like every other surviving node: the pipeline produces 2 links over 2
surviving nodes, not 2 - 1 = 1. -/
theorem c3_links_count_cex :
    (mainRun [(["A", "B"], 100)] 1 0).map (fun p => p.links.length) = some 2 ∧
    (mainRun [(["A", "B"], 100)] 1 0).map (fun p => (p.arena.filter (·.inPool)).length)
      = some 2 ∧
    (mainRun [(["A", "B"], 100)] 1 0).map (·.income) = some (some ["A", "B"]) ∧
    (2 : Nat) ≠ 2 - 1 :=
  ⟨by decide, by decide, by decide, by decide⟩

/-- C3 (amended): link derivation emits exactly one link per surviving
node except the surviving income-marked nodes without a parent (in a
pipeline run, the income root when it is top-level and survives), which
emit none; so the number of emitted links equals the number of surviving
nodes minus the number of surviving parentless income-marked nodes. -/
theorem c3_links_count (p : SankeyNodePool)
    (hnonnil : ∀ n ∈ p.arena, n.name ≠ [])
    (hpc : ∀ n ∈ p.arena, ∀ k ∈ List.range n.name.length, 0 < k →
      n.name.take k ∈ p.arena.map (·.name))
    (hinc : (p.income.bind (lookupNode p.arena)).isSome) :
    (create_links p).links.length
      = p.links.length + (p.arena.filter (·.inPool)).length
        - ((p.arena.filter (·.inPool)).filter
            (fun n => n.is_income && decide (n.name.length = 1))).length := by
  have hkey := filterMap_linkFor_length
    ((p.arena.filter (·.inPool)))
    (fun n hn => hnonnil n (List.mem_of_mem_filter hn))
    (fun n hn h2 => by
      have hmem : n.name.dropLast ∈ p.arena.map (·.name) := by
        rw [List.dropLast_eq_take]
        exact hpc n (List.mem_of_mem_filter hn) (n.name.length - 1)
          (List.mem_range.mpr (by omega)) (by omega)
      exact lookupNode_isSome_of_mem_names hmem)
    hinc
  rw [create_links]
  simp only [List.length_append]
  omega

/-- Witness for c3_links_count at the pruned-income-root pipeline pool
poolPreclass (1 surviving node B, no surviving income-marked node, 1
pre-existing link, 1 new link emitted). -/
theorem c3_links_count_witness :
    (∀ n ∈ poolPreclass.arena, n.name ≠ []) ∧
    (∀ n ∈ poolPreclass.arena, ∀ k ∈ List.range n.name.length, 0 < k →
      n.name.take k ∈ poolPreclass.arena.map (·.name)) ∧
    (poolPreclass.income.bind (lookupNode poolPreclass.arena)).isSome = true ∧
    (create_links poolPreclass).links.length
      = poolPreclass.links.length + (poolPreclass.arena.filter (·.inPool)).length
        - ((poolPreclass.arena.filter (·.inPool)).filter
            (fun n => n.is_income && decide (n.name.length = 1))).length :=
  ⟨by decide, by decide, by decide,
    c3_links_count poolPreclass (by decide) (by decide) (by decide)⟩

/-- C4 (counterexample): on transactions A/B ↦ 100, A/C ↦ -5 the income
root A/B has the non-income parent A (value 95); the link the income
root emits is directed child → parent but carries the PARENT's absolute
value 95, not the child's absolute value 100. -/
theorem c4_link_values_cex :
    (mainRun txsDeepIncome 1 0).map (·.links)
      = some [⟨["A", "B"], ["A"], 95⟩, ⟨["A", "B"], ["A"], 95⟩, ⟨["A"], ["A", "C"], 5⟩] ∧
    (mainRun txsDeepIncome 1 0).map (fun p => (lookupNode p.arena ["A", "B"]).map (|·.value|))
      = some (some 100) ∧
    (95 : ℚ) ≠ 100 :=
  ⟨by decide, by decide, by decide⟩

/-- C4 (amended): for every surviving node processed by link derivation:
an income-marked node with a parent emits a child → parent link whose
value is the child's absolute value when the parent is income-marked too
(every income node except the income root) but the PARENT's absolute
value when the parent is not income-marked (the income root itself); a
non-income node with a parent emits a parent → child link valued at the
child's absolute value; a non-income node without a parent emits an
income-root → node link valued at the node's absolute value. -/
theorem c4_link_shapes (p : SankeyNodePool) (n : SankeyNode)
    (hnd : (p.arena.map (·.name)).Nodup)
    (hn : n ∈ p.arena) (hpool : n.inPool = true) :
    (∀ par ∈ p.arena, n.is_income = true → 2 ≤ n.name.length →
      par.name = n.name.dropLast →
      (⟨n.name, par.name, if par.is_income then |n.value| else |par.value|⟩ : SankeyLink)
        ∈ (create_links p).links) ∧
    (∀ par ∈ p.arena, n.is_income = false → 2 ≤ n.name.length →
      par.name = n.name.dropLast →
      (⟨par.name, n.name, |n.value|⟩ : SankeyLink) ∈ (create_links p).links) ∧
    (∀ inode ∈ p.arena, n.is_income = false → n.name.length = 1 →
      p.income = some inode.name →
      (⟨inode.name, n.name, |n.value|⟩ : SankeyLink) ∈ (create_links p).links) := by
  have hmemf : n ∈ p.arena.filter (·.inPool) := List.mem_filter.mpr ⟨hn, hpool⟩
  refine ⟨?_, ?_, ?_⟩
  · intro par hpar hi h2 hname
    have hlp : lookupNode p.arena n.name.dropLast = some par := by
      rw [← hname]; exact lookupNode_eq_some_of_mem hnd hpar
    have hlf : linkFor p.arena p.income n
        = some ⟨n.name, par.name, if par.is_income then |n.value| else |par.value|⟩ := by
      cases hpi : par.is_income <;>
        simp [linkFor, parentOf, h2, hlp, hi, mkLink, hpi]
    rw [create_links]
    exact List.mem_append_right _ (List.mem_filterMap.mpr ⟨n, hmemf, hlf⟩)
  · intro par hpar hi h2 hname
    have hlp : lookupNode p.arena n.name.dropLast = some par := by
      rw [← hname]; exact lookupNode_eq_some_of_mem hnd hpar
    have hlf : linkFor p.arena p.income n = some ⟨par.name, n.name, |n.value|⟩ := by
      simp [linkFor, parentOf, h2, hlp, hi, mkLink]
    rw [create_links]
    exact List.mem_append_right _ (List.mem_filterMap.mpr ⟨n, hmemf, hlf⟩)
  · intro inode hinode hi h1 hincome
    have hlp : lookupNode p.arena inode.name = some inode :=
      lookupNode_eq_some_of_mem hnd hinode
    have h2 : ¬ 2 ≤ n.name.length := by rw [h1]; decide
    have hlf : linkFor p.arena p.income n = some ⟨inode.name, n.name, |n.value|⟩ := by
      simp [linkFor, parentOf, h2, hi, hincome, hlp, mkLink]
    rw [create_links]
    exact List.mem_append_right _ (List.mem_filterMap.mpr ⟨n, hmemf, hlf⟩)

/-- Witness for c4_link_shapes: in the pipeline pool on txsDeepIncome,
the income root A/B (with non-income parent A) emits the child → parent
link valued at the parent's absolute value. -/
theorem c4_link_shapes_witness :
    (poolDeepIncome.arena.map (·.name)).Nodup ∧
    nodeDeepAB ∈ poolDeepIncome.arena ∧ nodeDeepAB.inPool = true ∧
    nodeDeepA ∈ poolDeepIncome.arena ∧ nodeDeepAB.is_income = true ∧
    2 ≤ nodeDeepAB.name.length ∧ nodeDeepA.name = nodeDeepAB.name.dropLast ∧
    (⟨nodeDeepAB.name, nodeDeepA.name,
        if nodeDeepA.is_income then |nodeDeepAB.value| else |nodeDeepA.value|⟩ : SankeyLink)
      ∈ (create_links poolDeepIncome).links :=
  ⟨by decide, by decide, by decide, by decide, by decide, by decide, by decide,
    (c4_link_shapes poolDeepIncome nodeDeepAB (by decide) (by decide) (by decide)).1
      nodeDeepA (by decide) (by decide) (by decide) (by decide)⟩

theorem parentOf_eq_some {a : List SankeyNode} {n par : SankeyNode}
    (h : parentOf a n = some par) : par ∈ a := by
  by_cases h2 : 2 ≤ n.name.length
  · rw [parentOf, if_pos h2] at h
    exact (lookupNode_mem h).1
  · rw [parentOf, if_neg h2] at h
    cases h

theorem income_bind_mem {a : List SankeyNode} {inc : Option CatPath} {inode : SankeyNode}
    (h : inc.bind (lookupNode a) = some inode) : inode ∈ a := by
  cases inc with
  | none => cases h
  | some iname =>
    rw [Option.some_bind] at h
    exact (lookupNode_mem h).1

/-- C5 (counterexample): on txsPreclass with threshold 150 the pruned
income root A is the source of the only emitted link A → B, so a link
endpoint is a node that pruning removed from the pool. -/
theorem c5_pruned_endpoint_cex :
    (mainRun txsPreclass 1 150).map (·.links) = some [⟨["A"], ["B"], 200⟩] ∧
    (mainRun txsPreclass 1 150).map (fun p => poolNames p.arena) = some [["B"]] ∧
    (["A"] : CatPath) ∉ [(["B"] : CatPath)] :=
  ⟨by decide, by decide, by decide⟩

/-- C5 (amended): every link produced by link derivation connects two
nodes of the arena (nodes created during ingestion), and at least one of
its endpoints — the pool node for which the link was emitted — is in the
pool when link derivation runs; the other endpoint, however, may be a
node removed by pruning (a pruned parent of a surviving node or a pruned
income root). -/
theorem c5_link_endpoints (p : SankeyNodePool) (l : SankeyLink)
    (hl : l ∈ (create_links p).links) :
    l ∈ p.links ∨
      (l.source ∈ p.arena.map (·.name) ∧ l.target ∈ p.arena.map (·.name) ∧
        (l.source ∈ poolNames p.arena ∨ l.target ∈ poolNames p.arena)) := by
  rw [create_links] at hl
  rcases List.mem_append.mp hl with h | h
  · exact Or.inl h
  · right
    obtain ⟨n, hn, hlf⟩ := List.mem_filterMap.mp h
    have hna : n ∈ p.arena := (List.mem_filter.mp hn).1
    have hnames : n.name ∈ p.arena.map (·.name) := List.mem_map.mpr ⟨n, hna, rfl⟩
    have hpool : n.name ∈ poolNames p.arena := List.mem_map.mpr ⟨n, hn, rfl⟩
    rw [linkFor] at hlf
    cases hi : n.is_income with
    | true =>
      rw [hi] at hlf
      simp only [if_true] at hlf
      cases hpo : parentOf p.arena n with
      | none => rw [hpo] at hlf; cases hlf
      | some par =>
        rw [hpo] at hlf
        have hpar : par ∈ p.arena := parentOf_eq_some hpo
        have hml : l = mkLink n par := by
          cases hlf; rfl
        subst hml
        exact ⟨hnames, List.mem_map.mpr ⟨par, hpar, rfl⟩, Or.inl hpool⟩
    | false =>
      rw [hi] at hlf
      simp only [Bool.false_eq_true, if_false] at hlf
      cases hpo : parentOf p.arena n with
      | some par =>
        rw [hpo] at hlf
        have hpar : par ∈ p.arena := parentOf_eq_some hpo
        have hml : l = mkLink par n := by
          cases hlf; rfl
        subst hml
        exact ⟨List.mem_map.mpr ⟨par, hpar, rfl⟩, hnames, Or.inr hpool⟩
      | none =>
        rw [hpo] at hlf
        cases hio : p.income.bind (lookupNode p.arena) with
        | none => rw [hio] at hlf; cases hlf
        | some inode =>
          rw [hio] at hlf
          have hinode : inode ∈ p.arena := income_bind_mem hio
          have hml : l = mkLink inode n := by
            cases hlf; rfl
          subst hml
          exact ⟨List.mem_map.mpr ⟨inode, hinode, rfl⟩, hnames, Or.inr hpool⟩

/-- Witness for c5_link_endpoints at the pre-create_links pool of
txsPreclass: the single emitted link has its surviving target B in the
pool; its source A names an arena node (pruned). -/
theorem c5_link_endpoints_witness :
    (⟨["A"], ["B"], 200⟩ : SankeyLink) ∈ (create_links poolPrepPreclass).links ∧
    ((⟨["A"], ["B"], 200⟩ : SankeyLink) ∈ poolPrepPreclass.links ∨
      ((["A"] : CatPath) ∈ poolPrepPreclass.arena.map (·.name) ∧
        (["B"] : CatPath) ∈ poolPrepPreclass.arena.map (·.name) ∧
        ((["A"] : CatPath) ∈ poolNames poolPrepPreclass.arena ∨
          (["B"] : CatPath) ∈ poolNames poolPrepPreclass.arena))) :=
  ⟨by decide, c5_link_endpoints poolPrepPreclass _ (by decide)⟩

theorem lookupNode_map {a : List SankeyNode} {f : SankeyNode → SankeyNode}
    (hf : ∀ x, (f x).name = x.name) (p : CatPath) :
    lookupNode (a.map f) p = (lookupNode a p).map f := by
  induction a with
  | nil => rfl
  | cons m a ih =>
    rw [List.map_cons, lookupNode, lookupNode, List.find?_cons, List.find?_cons, hf m]
    cases hm : decide (m.name = p) with
    | true => rfl
    | false => exact ih

theorem name_inj {a : List SankeyNode} (hnd : (a.map (·.name)).Nodup)
    {x y : SankeyNode} (hx : x ∈ a) (hy : y ∈ a) (he : x.name = y.name) : x = y := by
  have h1 := lookupNode_eq_some_of_mem hnd hx
  have h2 := lookupNode_eq_some_of_mem hnd hy
  rw [he, h2] at h1
  exact (Option.some.inj h1).symm

theorem filter_erase_of_nodup {l : List CatPath} (hl : l.Nodup) (q : CatPath)
    {g g' : CatPath → Bool} (hgg : ∀ c, c ≠ q → g c = g' c)
    (hgq : g q = true) (hgq' : g' q = false) :
    (l.filter g).erase q = l.filter g' := by
  induction l with
  | nil => rfl
  | cons c l ih =>
    rw [List.nodup_cons] at hl
    by_cases hcq : c = q
    · subst hcq
      have h1 : (c :: l).filter g = c :: l.filter g := by simp [List.filter_cons, hgq]
      have h2 : (c :: l).filter g' = l.filter g' := by simp [List.filter_cons, hgq']
      rw [h1, h2, List.erase_cons_head]
      exact List.filter_congr fun x hx => hgg x fun he => absurd (he ▸ hx) hl.1
    · cases hg : g c with
      | true =>
        have hg2 : g' c = true := by rw [← hgg c hcq]; exact hg
        have h1 : (c :: l).filter g = c :: l.filter g := by simp [List.filter_cons, hg]
        have h2 : (c :: l).filter g' = c :: l.filter g' := by simp [List.filter_cons, hg2]
        rw [h1, h2, List.erase_cons_tail (by simp [hcq]), ih hl.2]
      | false =>
        have hg2 : g' c = false := by rw [← hgg c hcq]; exact hg
        have h1 : (c :: l).filter g = l.filter g := by simp [List.filter_cons, hg]
        have h2 : (c :: l).filter g' = l.filter g' := by simp [List.filter_cons, hg2]
        rw [h1, h2]
        exact ih hl.2

theorem updateNode_map {a : List SankeyNode} {F : SankeyNode → SankeyNode}
    (hf : ∀ x, (F x).name = x.name) (p : CatPath) (g : SankeyNode → SankeyNode) :
    updateNode (a.map F) p g = a.map fun n => if n.name = p then g (F n) else F n := by
  rw [updateNode, List.map_map]
  refine List.map_congr_left fun x hx => ?_
  by_cases hxp : x.name = p
  · simp [Function.comp, hf x, hxp]
  · simp [Function.comp, hf x, hxp]

theorem child_of_q {a : List SankeyNode} {q : CatPath}
    (hnonnil : ∀ n ∈ a, n.name ≠ [])
    (hext : ∀ n ∈ a, ∀ c ∈ n.children,
      c.take n.name.length = n.name ∧ c.length = n.name.length + 1)
    {x : SankeyNode} (hx : x ∈ a) (hc : q ∈ x.children) :
    x.name = q.dropLast ∧ 2 ≤ q.length := by
  obtain ⟨h1, h2⟩ := hext x hx q hc
  have hlen : 1 ≤ x.name.length :=
    List.length_pos.mpr (hnonnil x hx)
  constructor
  · rw [List.dropLast_eq_take, h2]
    simpa using h1.symm
  · omega

theorem purgeStep_partial (a : List SankeyNode) (t : ℚ) (done : List CatPath) (q : CatPath)
    (hnd : (a.map (·.name)).Nodup)
    (hnonnil : ∀ n ∈ a, n.name ≠ [])
    (hext : ∀ n ∈ a, ∀ c ∈ n.children,
      c.take n.name.length = n.name ∧ c.length = n.name.length + 1)
    (hcnd : ∀ n ∈ a, n.children.Nodup)
    (hq : q ∈ poolNames a) (hqdone : q ∉ done) :
    purgeStep t (a.map (purgeTpart a t done)) q = a.map (purgeTpart a t (done ++ [q])) := by
  obtain ⟨n0, hn0f, hn0name⟩ := List.mem_map.mp hq
  have hn0mem : n0 ∈ a := (List.mem_filter.mp hn0f).1
  have hn0pool : n0.inPool = true := by simpa using (List.mem_filter.mp hn0f).2
  have hlook : lookupNode a q = some n0 := by
    rw [← hn0name]; exact lookupNode_eq_some_of_mem hnd hn0mem
  have hfname : ∀ x, (purgeTpart a t done x).name = x.name := fun x => rfl
  have hlookF : lookupNode (a.map (purgeTpart a t done)) q
      = some (purgeTpart a t done n0) := by
    rw [lookupNode_map hfname, hlook]; rfl
  have hqnil : q ≠ [] := hn0name ▸ hnonnil n0 hn0mem
  have hqlen : 1 ≤ q.length := List.length_pos.mpr hqnil
  have hipNe : ∀ x : SankeyNode, x.name ≠ q →
      (x.inPool && !(decide (x.name ∈ done) && decide (|x.value| ≤ t)))
        = (x.inPool && !(decide (x.name ∈ done ++ [q]) && decide (|x.value| ≤ t))) := by
    intro x hxq
    have hm : decide (x.name ∈ done ++ [q]) = decide (x.name ∈ done) := by
      simp [List.mem_append, hxq]
    rw [hm]
  have hchNotMem : ∀ x : SankeyNode, q ∉ x.children →
      (x.children.filter fun c => !(decide (c ∈ done) && prunedBy a t c))
        = x.children.filter fun c => !(decide (c ∈ done ++ [q]) && prunedBy a t c) := by
    intro x hqc
    refine List.filter_congr fun c hc => ?_
    have hcq : c ≠ q := fun he => hqc (he ▸ hc)
    have hm : decide (c ∈ done ++ [q]) = decide (c ∈ done) := by
      simp [List.mem_append, hcq]
    rw [hm]
  have hnochildq : ∀ x ∈ a, x.name = q → q ∉ x.children := by
    intro x hx hxq hc
    have h2 := (hext x hx q hc).2
    rw [hxq] at h2
    omega
  by_cases hcond : |n0.value| ≤ t
  · -- the node is pruned
    have hprqT : prunedBy a t q = true := by
      rw [prunedBy, hlook]
      show (n0.inPool && decide (|n0.value| ≤ t)) = true
      rw [hn0pool, decide_eq_true hcond]
      rfl
    simp only [purgeStep, hlookF]
    rw [if_pos (show |(purgeTpart a t done n0).value| ≤ t from hcond)]
    have hn0len : (purgeTpart a t done n0).name = q := hn0name
    rw [show (purgeTpart a t done n0).name = q from hn0name]
    by_cases h2 : 2 ≤ q.length
    · rw [if_pos h2]
      rw [updateNode_map hfname]
      have hHname : ∀ x,
          ((fun n => if n.name = q.dropLast
              then { purgeTpart a t done n with
                      children := (purgeTpart a t done n).children.erase q }
              else purgeTpart a t done n) x).name = x.name := by
        intro x
        by_cases hx : x.name = q.dropLast <;> simp [hx, purgeTpart]
      rw [updateNode_map hHname]
      refine List.map_congr_left fun x hx => ?_
      have hdql : q.dropLast ≠ q := by
        intro he
        have := congrArg List.length he
        rw [List.length_dropLast] at this
        omega
      by_cases hxq : x.name = q
      · have hxn0 : x = n0 := name_inj hnd hx hn0mem (by rw [hxq, hn0name])
        have hxdq : ¬(x.name = q.dropLast) := by rw [hxq]; exact fun he => hdql he.symm
        rw [if_pos hxq, if_neg hxdq]
        have hqc : q ∉ x.children := hnochildq x hx hxq
        have hch := hchNotMem x hqc
        have hvx : decide (|x.value| ≤ t) = true := by
          rw [hxn0]; exact decide_eq_true hcond
        have hmq : decide (x.name ∈ done ++ [q]) = true := by
          simp [List.mem_append, hxq]
        have hip2 : (x.inPool && !(decide (x.name ∈ done ++ [q]) && decide (|x.value| ≤ t)))
            = false := by
          rw [hvx, hmq]; simp
        simp only [purgeTpart]
        rw [hch, hip2]
      · rw [if_neg hxq]
        by_cases hxdq : x.name = q.dropLast
        · rw [if_pos hxdq]
          have hch : ((x.children.filter
                fun c => !(decide (c ∈ done) && prunedBy a t c)).erase q)
              = x.children.filter
                  fun c => !(decide (c ∈ done ++ [q]) && prunedBy a t c) := by
            refine filter_erase_of_nodup (hcnd x hx) q ?_ ?_ ?_
            · intro c hcq
              have hm : decide (c ∈ done ++ [q]) = decide (c ∈ done) := by
                simp [List.mem_append, hcq]
              rw [hm]
            · rw [decide_eq_false hqdone, hprqT]; rfl
            · rw [hprqT, show decide (q ∈ done ++ [q]) = true by simp]; rfl
          simp only [purgeTpart]
          rw [hch, hipNe x hxq]
        · rw [if_neg hxdq]
          have hqc : q ∉ x.children := fun hc =>
            hxdq (child_of_q hnonnil hext hx hc).1
          simp only [purgeTpart]
          rw [hchNotMem x hqc, hipNe x hxq]
    · rw [if_neg h2]
      rw [updateNode_map hfname]
      refine List.map_congr_left fun x hx => ?_
      by_cases hxq : x.name = q
      · have hxn0 : x = n0 := name_inj hnd hx hn0mem (by rw [hxq, hn0name])
        rw [if_pos hxq]
        have hqc : q ∉ x.children := hnochildq x hx hxq
        have hch := hchNotMem x hqc
        have hvx : decide (|x.value| ≤ t) = true := by
          rw [hxn0]; exact decide_eq_true hcond
        have hmq : decide (x.name ∈ done ++ [q]) = true := by
          simp [List.mem_append, hxq]
        have hip2 : (x.inPool && !(decide (x.name ∈ done ++ [q]) && decide (|x.value| ≤ t)))
            = false := by
          rw [hvx, hmq]; simp
        simp only [purgeTpart]
        rw [hch, hip2]
      · rw [if_neg hxq]
        have hqc : q ∉ x.children := fun hc => by
          have := (child_of_q hnonnil hext hx hc).2
          omega
        simp only [purgeTpart]
        rw [hchNotMem x hqc, hipNe x hxq]
  · -- the node survives
    have hprqF : prunedBy a t q = false := by
      rw [prunedBy, hlook]
      show (n0.inPool && decide (|n0.value| ≤ t)) = false
      rw [decide_eq_false hcond]
      simp
    simp only [purgeStep, hlookF]
    rw [if_neg (show ¬ |(purgeTpart a t done n0).value| ≤ t from hcond)]
    refine List.map_congr_left fun x hx => ?_
    have hch : (x.children.filter fun c => !(decide (c ∈ done) && prunedBy a t c))
        = x.children.filter fun c => !(decide (c ∈ done ++ [q]) && prunedBy a t c) := by
      refine List.filter_congr fun c hc => ?_
      by_cases hcq : c = q
      · subst hcq; rw [hprqF]; simp
      · have hm : decide (c ∈ done ++ [q]) = decide (c ∈ done) := by
          simp [List.mem_append, hcq]
        rw [hm]
    by_cases hxq : x.name = q
    · have hxn0 : x = n0 := name_inj hnd hx hn0mem (by rw [hxq, hn0name])
      have hvx : decide (|x.value| ≤ t) = false := by
        rw [hxn0]; exact decide_eq_false hcond
      simp only [purgeTpart]
      rw [hch, hvx]
      simp
    · simp only [purgeTpart]
      rw [hch, hipNe x hxq]

theorem poolNames_nodup {a : List SankeyNode} (hnd : (a.map (·.name)).Nodup) :
    (poolNames a).Nodup := by
  have hsub : List.Sublist ((a.filter (·.inPool)).map (·.name)) (a.map (·.name)) :=
    (List.filter_sublist a).map _
  exact hnd.sublist hsub

theorem purge_fold (a : List SankeyNode) (t : ℚ)
    (hnd : (a.map (·.name)).Nodup)
    (hnonnil : ∀ n ∈ a, n.name ≠ [])
    (hext : ∀ n ∈ a, ∀ c ∈ n.children,
      c.take n.name.length = n.name ∧ c.length = n.name.length + 1)
    (hcnd : ∀ n ∈ a, n.children.Nodup) :
    ∀ (rest done : List CatPath), poolNames a = done ++ rest →
      rest.foldl (purgeStep t) (a.map (purgeTpart a t done))
        = a.map (purgeTpart a t (done ++ rest)) := by
  intro rest
  induction rest with
  | nil => intro done h; simp
  | cons q rest ih =>
    intro done h
    have hq : q ∈ poolNames a := by rw [h]; simp
    have hnodup : (poolNames a).Nodup := poolNames_nodup hnd
    have hqdone : q ∉ done := by
      rw [h] at hnodup
      intro hmem
      exact (List.nodup_append.mp hnodup).2.2 hmem (by simp)
    rw [List.foldl_cons,
      purgeStep_partial a t done q hnd hnonnil hext hcnd hq hqdone]
    have hres := ih (done ++ [q]) (by rw [h]; simp)
    rw [List.append_assoc, List.singleton_append] at hres
    exact hres

theorem purge_spec (a : List SankeyNode) (t : ℚ) (hwf : WFpool a) :
    purge t a = a.map (purgeT a t) := by
  obtain ⟨hnd, hnonnil, hext, hcnd⟩ := hwf
  have h0 : a.map (purgeTpart a t []) = a := by
    have h1 : a.map (purgeTpart a t []) = a.map id :=
      List.map_congr_left fun x hx => by
        simp [purgeTpart]
    rw [h1, List.map_id]
  have hfinal : ∀ x ∈ a, purgeTpart a t (poolNames a) x = purgeT a t x := by
    intro x hx
    have hip : (x.inPool && !(decide (x.name ∈ poolNames a) && decide (|x.value| ≤ t)))
        = (x.inPool && !decide (|x.value| ≤ t)) := by
      cases hpx : x.inPool with
      | false => simp
      | true =>
        have hm : x.name ∈ poolNames a :=
          List.mem_map.mpr ⟨x, List.mem_filter.mpr ⟨hx, hpx⟩, rfl⟩
        rw [decide_eq_true hm]
        simp
    have hch : (x.children.filter fun c => !(decide (c ∈ poolNames a) && prunedBy a t c))
        = x.children.filter fun c => !prunedBy a t c := by
      refine List.filter_congr fun c hc => ?_
      cases hpr : prunedBy a t c with
      | false => simp
      | true =>
        have hcp : c ∈ poolNames a := by
          cases hl : lookupNode a c with
          | none =>
            have : prunedBy a t c = false := by rw [prunedBy, hl]
            rw [this] at hpr
            cases hpr
          | some m =>
            have hmm : prunedBy a t c = (m.inPool && decide (|m.value| ≤ t)) := by
              rw [prunedBy, hl]
            rw [hmm] at hpr
            obtain ⟨hm, hmn⟩ := lookupNode_mem hl
            have hmp : m.inPool = true := ((Bool.and_eq_true _ _).mp hpr).1
            exact List.mem_map.mpr ⟨m, List.mem_filter.mpr ⟨hm, hmp⟩, hmn⟩
        rw [decide_eq_true hcp]
        simp
    simp only [purgeTpart, purgeT]
    rw [hip, hch]
  calc (poolNames a).foldl (purgeStep t) a
      = (poolNames a).foldl (purgeStep t) (a.map (purgeTpart a t [])) := by rw [h0]
    _ = a.map (purgeTpart a t ([] ++ poolNames a)) :=
        purge_fold a t hnd hnonnil hext hcnd (poolNames a) [] (by simp)
    _ = a.map (purgeT a t) := by
        rw [List.nil_append]
        exact List.map_congr_left hfinal

/-- C6: for every threshold t ≥ 0 on a well-formed pool, pruning removes
from the pool exactly the nodes whose absolute value is at or below t
(so it never removes a node, descendant or not, whose own absolute value
exceeds t, even when its parent is removed); every node object survives
in the arena with its name — hence its implicit parent reference — and
its value, color and income mark unchanged; and the children dicts lose
exactly the keys of the removed nodes (each removed node is detached
from its parent's dict; nothing is reparented). -/
theorem c6_purge_exact (a : List SankeyNode) (t : ℚ) (hwf : WFpool a) (ht : 0 ≤ t) :
    ((purge t a).map (·.name) = a.map (·.name)) ∧
    (∀ x ∈ a, ∀ y ∈ purge t a, y.name = x.name →
      y.value = x.value ∧ y.color = x.color ∧ y.is_income = x.is_income ∧
      y.inPool = (x.inPool && !decide (|x.value| ≤ t)) ∧
      y.children = x.children.filter fun c => !prunedBy a t c) ∧
    (∀ x ∈ a, x.inPool = true → |x.value| ≤ t →
      ∀ y ∈ purge t a, x.name ∉ y.children) := by
  have hspec := purge_spec a t hwf
  obtain ⟨hnd, hnonnil, hext, hcnd⟩ := hwf
  refine ⟨?_, ?_, ?_⟩
  · rw [hspec, List.map_map]
    exact List.map_congr_left fun x _ => rfl
  · intro x hx y hy hname
    rw [hspec] at hy
    obtain ⟨z, hz, hzy⟩ := List.mem_map.mp hy
    have hzname : z.name = x.name := by rw [← hzy] at hname; exact hname
    have hzx : z = x := name_inj hnd hz hx hzname
    subst hzx
    rw [← hzy]
    exact ⟨rfl, rfl, rfl, rfl, rfl⟩
  · intro x hx hpx hvx y hy hmem
    rw [hspec] at hy
    obtain ⟨z, hz, hzy⟩ := List.mem_map.mp hy
    rw [← hzy] at hmem
    have hmem2 := List.mem_filter.mp hmem
    have hpr : prunedBy a t x.name = true := by
      have hl : lookupNode a x.name = some x := lookupNode_eq_some_of_mem hnd hx
      rw [prunedBy, hl]
      show (x.inPool && decide (|x.value| ≤ t)) = true
      rw [hpx, decide_eq_true hvx]
      rfl
    rw [hpr] at hmem2
    simp at hmem2

/-- Witness for c6_purge_exact at the ingested pool of txsDeepIncome
with threshold 50 (removing A/C with value -5). -/
theorem c6_purge_exact_witness :
    WFpool (ingest txsDeepIncome) ∧ (0 : ℚ) ≤ 50 ∧
    (((purge 50 (ingest txsDeepIncome)).map (·.name) = (ingest txsDeepIncome).map (·.name)) ∧
    (∀ x ∈ ingest txsDeepIncome, ∀ y ∈ purge 50 (ingest txsDeepIncome), y.name = x.name →
      y.value = x.value ∧ y.color = x.color ∧ y.is_income = x.is_income ∧
      y.inPool = (x.inPool && !decide (|x.value| ≤ 50)) ∧
      y.children = x.children.filter fun c => !prunedBy (ingest txsDeepIncome) 50 c) ∧
    (∀ x ∈ ingest txsDeepIncome, x.inPool = true → |x.value| ≤ 50 →
      ∀ y ∈ purge 50 (ingest txsDeepIncome), x.name ∉ y.children)) :=
  ⟨by decide, by decide, c6_purge_exact (ingest txsDeepIncome) 50 (by decide) (by decide)⟩

theorem wfpool_divValues {a : List SankeyNode} (hwf : WFpool a) (d : ℚ) :
    WFpool (divValues d a) := by
  obtain ⟨hnd, hnonnil, hext, hcnd⟩ := hwf
  have hname : ∀ x : SankeyNode,
      ((fun n : SankeyNode => if n.inPool then { n with value := n.value / d } else n) x).name
        = x.name := by
    intro x; by_cases h : x.inPool <;> simp [h]
  have hch : ∀ x : SankeyNode,
      ((fun n : SankeyNode =>
        if n.inPool then { n with value := n.value / d } else n) x).children
        = x.children := by
    intro x; by_cases h : x.inPool <;> simp [h]
  have hnames : (divValues d a).map (·.name) = a.map (·.name) := by
    rw [divValues, List.map_map]
    exact List.map_congr_left fun x _ => hname x
  refine ⟨by rw [hnames]; exact hnd, ?_, ?_, ?_⟩
  · intro n hn
    obtain ⟨x, hx, hxg⟩ := List.mem_map.mp hn
    rw [← hxg, hname x]
    exact hnonnil x hx
  · intro n hn
    obtain ⟨x, hx, hxg⟩ := List.mem_map.mp hn
    rw [← hxg, hname x, hch x]
    exact hext x hx
  · intro n hn
    obtain ⟨x, hx, hxg⟩ := List.mem_map.mp hn
    rw [← hxg, hch x]
    exact hcnd x hx

theorem poolNames_map {b : List SankeyNode} {F : SankeyNode → SankeyNode}
    (hf : ∀ x, (F x).name = x.name) :
    poolNames (b.map F) = (b.filter fun x => (F x).inPool).map (·.name) := by
  rw [poolNames, List.filter_map, List.map_map]
  refine congr (congrArg List.map (funext fun x => hf x)) ?_
  exact List.filter_congr fun x hx => rfl

/-- C7: on a well-formed pool, for every divisor d > 0 and threshold
t ≥ 0, dividing all pool values by d and then pruning at t leaves
exactly the same surviving node keys (in the same order) as pruning at
t * d and then dividing by d. -/
theorem c7_scaling_pruning_commute (a : List SankeyNode) (d t : ℚ)
    (hwf : WFpool a) (hd : 0 < d) (ht : 0 ≤ t) :
    poolNames (purge t (divValues d a)) = poolNames (divValues d (purge (t * d) a)) := by
  have hwfd : WFpool (divValues d a) := wfpool_divValues hwf d
  have hpoolDiv : ∀ X : List SankeyNode, poolNames (divValues d X) = poolNames X := by
    intro X
    rw [divValues, poolNames_map
      (F := fun n : SankeyNode => if n.inPool then { n with value := n.value / d } else n)
      (fun x => by by_cases h : x.inPool <;> simp [h])]
    rw [poolNames]
    refine congrArg (List.map _) (List.filter_congr fun x hx => ?_)
    by_cases h : x.inPool <;> simp [h]
  have hL : poolNames (purge t (divValues d a))
      = (a.filter fun x => x.inPool && !decide (|x.value / d| ≤ t)).map (·.name) := by
    rw [purge_spec _ _ hwfd,
      poolNames_map (F := purgeT (divValues d a) t) (fun x => rfl)]
    rw [divValues, List.filter_map, List.map_map]
    refine congr (congrArg List.map (funext fun x => by
      by_cases h : x.inPool <;> simp [Function.comp, h])) ?_
    refine List.filter_congr fun x hx => ?_
    show (purgeT (divValues d a) t
        (if x.inPool then { x with value := x.value / d } else x)).inPool
      = (x.inPool && !decide (|x.value / d| ≤ t))
    by_cases h : x.inPool <;> simp [purgeT, h]
  have hR : poolNames (divValues d (purge (t * d) a))
      = (a.filter fun x => x.inPool && !decide (|x.value| ≤ t * d)).map (·.name) := by
    rw [hpoolDiv, purge_spec _ _ hwf,
      poolNames_map (F := purgeT a (t * d)) (fun x => rfl)]
    exact congrArg (List.map _) (List.filter_congr fun x hx => rfl)
  rw [hL, hR]
  refine congrArg (List.map _) (List.filter_congr fun x hx => ?_)
  cases hp : x.inPool with
  | false => simp
  | true =>
    have habs : |x.value / d| = |x.value| / d := by
      rw [abs_div, abs_of_pos hd]
    have hiff : (|x.value / d| ≤ t) ↔ (|x.value| ≤ t * d) := by
      rw [habs]
      exact div_le_iff hd
    rw [decide_eq_decide.mpr hiff]

/-- Witness for c7_scaling_pruning_commute on the ingested pool of
txsDeepIncome with divisor 2 and threshold 30. -/
theorem c7_scaling_pruning_commute_witness :
    WFpool (ingest txsDeepIncome) ∧ (0 : ℚ) < 2 ∧ (0 : ℚ) ≤ 30 ∧
    poolNames (purge 30 (divValues 2 (ingest txsDeepIncome)))
      = poolNames (divValues 2 (purge (30 * 2) (ingest txsDeepIncome))) :=
  ⟨by decide, by decide, by decide,
    c7_scaling_pruning_commute (ingest txsDeepIncome) 2 30 (by decide) (by decide) (by decide)⟩

theorem poolLookup_eq_lookup {b : List SankeyNode}
    (hall : ∀ n ∈ b, n.inPool = true) (p : CatPath) :
    poolLookup b p = lookupNode b p := by
  induction b with
  | nil => rfl
  | cons m b ih =>
    rw [poolLookup, lookupNode, List.find?_cons, List.find?_cons,
      hall m (by simp), Bool.true_and]
    cases hm : decide (m.name = p) with
    | true => rfl
    | false => exact ih fun n hn => hall n (by simp [hn])

theorem lookupNode_eq_none_iff {b : List SankeyNode} {p : CatPath} :
    lookupNode b p = none ↔ p ∉ b.map (·.name) := by
  constructor
  · intro h hmem
    have := lookupNode_isSome_of_mem_names hmem
    rw [h] at this
    cases this
  · intro hmem
    cases hl : lookupNode b p with
    | none => rfl
    | some m =>
      obtain ⟨hm, hname⟩ := lookupNode_mem hl
      exact absurd (hname ▸ List.mem_map.mpr ⟨m, hm, rfl⟩) hmem

theorem lookupNode_append_single {b : List SankeyNode} {x : SankeyNode} {p : CatPath} :
    lookupNode (b ++ [x]) p
      = match lookupNode b p with
        | some m => some m
        | none => if x.name = p then some x else none := by
  rw [lookupNode, List.find?_append]
  cases hl : lookupNode b p with
  | some m =>
    rw [lookupNode] at hl
    rw [hl]
    rfl
  | none =>
    rw [lookupNode] at hl
    rw [hl, Option.none_or]
    by_cases hx : x.name = p <;> simp [List.find?, hx]

theorem lookupNode_updateNode {b : List SankeyNode} {f : SankeyNode → SankeyNode}
    (hf : ∀ x, (f x).name = x.name) (r p : CatPath) :
    lookupNode (updateNode b r f) p
      = if p = r then (lookupNode b p).map fun n => if n.name = r then f n else n
        else lookupNode b p := by
  have key : lookupNode (updateNode b r f) p
      = (lookupNode b p).map fun n => if n.name = r then f n else n := by
    rw [updateNode, lookupNode_map]
    intro x
    by_cases hx : x.name = r <;> simp [hx, hf]
  by_cases hpr : p = r
  · rw [key, if_pos hpr]
  · rw [key, if_neg hpr]
    cases hl : lookupNode b p with
    | none => rfl
    | some m =>
      have hm : m.name = p := (lookupNode_mem hl).2
      show some (if m.name = r then f m else m) = some m
      rw [if_neg (by rw [hm]; exact hpr)]

theorem names_updateNode {b : List SankeyNode} {f : SankeyNode → SankeyNode}
    (hf : ∀ x, (f x).name = x.name) (r : CatPath) :
    (updateNode b r f).map (·.name) = b.map (·.name) := by
  rw [updateNode, List.map_map]
  refine List.map_congr_left fun x hx => ?_
  by_cases hxr : x.name = r <;> simp [hxr, hf]

theorem inPool_updateNode {b : List SankeyNode} {f : SankeyNode → SankeyNode}
    (hf : ∀ x, (f x).inPool = x.inPool)
    (hall : ∀ n ∈ b, n.inPool = true) (r : CatPath) :
    ∀ n ∈ updateNode b r f, n.inPool = true := by
  intro n hn
  obtain ⟨x, hx, hxn⟩ := List.mem_map.mp hn
  rw [← hxn]
  by_cases hxr : x.name = r
  · rw [if_pos hxr, hf]
    exact hall x hx
  · rw [if_neg hxr]
    exact hall x hx

theorem nodeVal_updateNode_keep {b : List SankeyNode} {f : SankeyNode → SankeyNode}
    (hfn : ∀ x, (f x).name = x.name) (hfv : ∀ x, (f x).value = x.value)
    (r p : CatPath) : nodeVal (updateNode b r f) p = nodeVal b p := by
  rw [nodeVal, lookupNode_updateNode hfn]
  by_cases hpr : p = r
  · rw [if_pos hpr, nodeVal, Option.map_map]
    cases hl : lookupNode b p with
    | none => rfl
    | some m =>
      show some (if m.name = r then f m else m).value = some m.value
      by_cases hm : m.name = r <;> simp [hm, hfv]
  · rw [if_neg hpr, nodeVal]

theorem nodeVal_bumpValue (b : List SankeyNode) (r : CatPath) (amt : ℚ) (p : CatPath) :
    nodeVal (bumpValue b r amt) p
      = if p = r then (nodeVal b p).map (· + amt) else nodeVal b p := by
  rw [nodeVal, bumpValue,
    lookupNode_updateNode (f := fun n => { n with value := n.value + amt }) (fun x => rfl)]
  by_cases hpr : p = r
  · rw [if_pos hpr, if_pos hpr, nodeVal, Option.map_map, Option.map_map]
    cases hl : lookupNode b p with
    | none => rfl
    | some m =>
      have hm : m.name = p := (lookupNode_mem hl).2
      show some (if m.name = r then { m with value := m.value + amt } else m).value
        = some (m.value + amt)
      rw [if_pos (by rw [hm]; exact hpr)]
  · rw [if_neg hpr, if_neg hpr, nodeVal]

theorem ensureStep_present {b : List SankeyNode} {path : CatPath} {i : Nat}
    (hall : ∀ n ∈ b, n.inPool = true) (hmem : path.take (i + 1) ∈ b.map (·.name)) :
    ensureStep path b i = b := by
  rw [ensureStep]
  have h1 : (poolLookup b (path.take (i + 1))).isSome = true := by
    rw [poolLookup_eq_lookup hall]
    exact lookupNode_isSome_of_mem_names hmem
  rw [if_pos h1]

theorem ensureStep_missing {b : List SankeyNode} {path : CatPath} {i : Nat}
    (hall : ∀ n ∈ b, n.inPool = true) (hmem : path.take (i + 1) ∉ b.map (·.name)) :
    ((ensureStep path b i).map (·.name) = b.map (·.name) ++ [path.take (i + 1)]) ∧
    (∀ p, nodeVal (ensureStep path b i) p
      = if p = path.take (i + 1) then some 0 else nodeVal b p) ∧
    (∀ n ∈ ensureStep path b i, n.inPool = true) := by
  have h1 : (poolLookup b (path.take (i + 1))).isSome = false := by
    rw [poolLookup_eq_lookup hall,
      (lookupNode_eq_none_iff).mpr hmem]
    rfl
  have happN : (b ++ [newNode (path.take (i + 1))]).map (·.name)
      = b.map (·.name) ++ [path.take (i + 1)] := by
    rw [List.map_append]
    rfl
  have happV : ∀ p, nodeVal (b ++ [newNode (path.take (i + 1))]) p
      = if p = path.take (i + 1) then some 0 else nodeVal b p := by
    intro p
    rw [nodeVal, lookupNode_append_single]
    cases hl : lookupNode b p with
    | some m =>
      have hmm : m.name = p := (lookupNode_mem hl).2
      have hpne : ¬(p = path.take (i + 1)) := fun he =>
        hmem (he ▸ hmm ▸ List.mem_map.mpr ⟨m, (lookupNode_mem hl).1, rfl⟩)
      rw [if_neg hpne, nodeVal, hl]
    | none =>
      by_cases hp : p = path.take (i + 1)
      · rw [if_pos hp]
        show (if (newNode (path.take (i + 1))).name = p then some (newNode (path.take (i + 1))) else none).map (·.value) = some 0
        rw [if_pos (by rw [hp]; rfl)]
        rfl
      · rw [if_neg hp, nodeVal, hl]
        show (if (newNode (path.take (i + 1))).name = p then some (newNode (path.take (i + 1))) else none).map (·.value) = none
        rw [if_neg (by show ¬ path.take (i + 1) = p; exact fun he => hp he.symm)]
        rfl
  have happP : ∀ n ∈ b ++ [newNode (path.take (i + 1))], n.inPool = true := by
    intro n hn
    rcases List.mem_append.mp hn with h | h
    · exact hall n h
    · rw [List.mem_singleton.mp h]
      rfl
  rw [ensureStep]
  rw [if_neg (by rw [h1]; exact Bool.false_ne_true)]
  by_cases hpar : path.take i = []
  · rw [if_pos hpar]
    exact ⟨happN, happV, happP⟩
  · rw [if_neg hpar]
    refine ⟨?_, ?_, ?_⟩
    · rw [addChild, names_updateNode (by
        intro x
        by_cases hc : path.take (i + 1) ∈ x.children <;> simp [hc])]
      exact happN
    · intro p
      rw [addChild, nodeVal_updateNode_keep (by
          intro x
          by_cases hc : path.take (i + 1) ∈ x.children <;> simp [hc])
        (by
          intro x
          by_cases hc : path.take (i + 1) ∈ x.children <;> simp [hc])]
      exact happV p
    · refine inPool_updateNode ?_ happP _
      intro x
      by_cases hc : path.take (i + 1) ∈ x.children <;> simp [hc]

theorem nodeVal_none_iff {b : List SankeyNode} {p : CatPath} :
    nodeVal b p = none ↔ p ∉ b.map (·.name) := by
  rw [nodeVal]
  rw [show ((lookupNode b p).map (·.value) = none) ↔ (lookupNode b p = none) by
    cases lookupNode b p <;> simp]
  exact lookupNode_eq_none_iff

theorem foldl_ensureStep_noop {path : CatPath} :
    ∀ (l : List Nat) (b : List SankeyNode),
      (∀ n ∈ b, n.inPool = true) →
      (∀ j ∈ l, path.take (j + 1) ∈ b.map (·.name)) →
      l.foldl (ensureStep path) b = b := by
  intro l
  induction l with
  | nil => intro b _ _; rfl
  | cons j l ih =>
    intro b hall hpres
    rw [List.foldl_cons, ensureStep_present hall (hpres j (by simp))]
    exact ih b hall fun j' hj' => hpres j' (by simp [hj'])

theorem cond_step {q p : CatPath} {k : Nat}
    (hne : p ≠ q.take (k + 1)) (hk : k < q.length) :
    (p ≠ [] ∧ p.length ≤ k + 1 ∧ q.take p.length = p)
      ↔ (p ≠ [] ∧ p.length ≤ k ∧ q.take p.length = p) := by
  constructor
  · rintro ⟨h1, h2, h3⟩
    refine ⟨h1, ?_, h3⟩
    rcases Nat.lt_or_ge p.length (k + 1) with h | h
    · omega
    · have hpl : p.length = k + 1 := by omega
      rw [hpl] at h3
      exact absurd h3.symm hne
  · rintro ⟨h1, h2, h3⟩
    exact ⟨h1, by omega, h3⟩

theorem get_node_present {b : List SankeyNode} {q : CatPath} {k : Nat}
    (hall : ∀ n ∈ b, n.inPool = true) (hk : k < q.length)
    (hpres : ∀ j, j < k → q.take (j + 1) ∈ b.map (·.name))
    (hmem : q.take (k + 1) ∈ b.map (·.name)) :
    get_node b (q.take (k + 1)) = b := by
  have hlen : (q.take (k + 1)).length = k + 1 := by
    rw [List.length_take]; omega
  rw [get_node, hlen, List.range_succ, List.foldl_append, List.foldl_cons, List.foldl_nil]
  have hinner : (List.range k).foldl (ensureStep (q.take (k + 1))) b = b := by
    refine foldl_ensureStep_noop _ b hall fun j hj => ?_
    have hjk : j < k := List.mem_range.mp hj
    have htk : (q.take (k + 1)).take (j + 1) = q.take (j + 1) := by
      rw [List.take_take]
      congr 1
      omega
    rw [htk]
    exact hpres j hjk
  rw [hinner]
  have htt : (q.take (k + 1)).take (k + 1) = q.take (k + 1) := by
    rw [List.take_take]
    simp
  exact ensureStep_present hall (by rw [htt]; exact hmem)

theorem get_node_missing {b : List SankeyNode} {q : CatPath} {k : Nat}
    (hall : ∀ n ∈ b, n.inPool = true) (hk : k < q.length)
    (hpres : ∀ j, j < k → q.take (j + 1) ∈ b.map (·.name))
    (hmem : q.take (k + 1) ∉ b.map (·.name)) :
    ((get_node b (q.take (k + 1))).map (·.name) = b.map (·.name) ++ [q.take (k + 1)]) ∧
    (∀ p, nodeVal (get_node b (q.take (k + 1))) p
      = if p = q.take (k + 1) then some 0 else nodeVal b p) ∧
    (∀ n ∈ get_node b (q.take (k + 1)), n.inPool = true) := by
  have hlen : (q.take (k + 1)).length = k + 1 := by
    rw [List.length_take]; omega
  have hinner : (List.range k).foldl (ensureStep (q.take (k + 1))) b = b := by
    refine foldl_ensureStep_noop _ b hall fun j hj => ?_
    have hjk : j < k := List.mem_range.mp hj
    have htk : (q.take (k + 1)).take (j + 1) = q.take (j + 1) := by
      rw [List.take_take]
      congr 1
      omega
    rw [htk]
    exact hpres j hjk
  have hfold : get_node b (q.take (k + 1)) = ensureStep (q.take (k + 1)) b k := by
    rw [get_node, hlen, List.range_succ, List.foldl_append, List.foldl_cons,
      List.foldl_nil, hinner]
  have htt : (q.take (k + 1)).take (k + 1) = q.take (k + 1) := by
    rw [List.take_take]
    simp
  have hres := @ensureStep_missing b (q.take (k + 1)) k hall
    (by rw [htt]; exact hmem)
  rw [htt] at hres
  rw [hfold]
  exact hres

theorem names_bumpValue (b : List SankeyNode) (r : CatPath) (amt : ℚ) :
    (bumpValue b r amt).map (·.name) = b.map (·.name) := by
  rw [bumpValue]
  exact names_updateNode (f := fun n => { n with value := n.value + amt }) (fun x => rfl) _

theorem inPool_bumpValue (b : List SankeyNode) (r : CatPath) (amt : ℚ)
    (hall : ∀ n ∈ b, n.inPool = true) : ∀ n ∈ bumpValue b r amt, n.inPool = true := by
  rw [bumpValue]
  exact inPool_updateNode (f := fun n => { n with value := n.value + amt })
    (fun x => rfl) hall _

theorem ingestTx_aux (a : List SankeyNode) (q : CatPath) (amt : ℚ)
    (hq : q ≠ []) (hall : ∀ n ∈ a, n.inPool = true)
    (hnonnil : ∀ n ∈ a, n.name ≠ []) (hnd : (a.map (·.name)).Nodup) :
    ∀ k, k ≤ q.length →
      ∀ b, b = (List.range k).foldl
          (fun c i => bumpValue (get_node c (q.take (i + 1))) (q.take (i + 1)) amt) a →
        (∀ j, j < k → q.take (j + 1) ∈ b.map (·.name)) ∧
        (∀ n ∈ b, n.inPool = true) ∧
        (∀ n ∈ b, n.name ≠ []) ∧
        ((b.map (·.name)).Nodup) ∧
        (∀ p v, nodeVal a p = some v →
          nodeVal b p
            = some (v + if p ≠ [] ∧ p.length ≤ k ∧ q.take p.length = p then amt else 0)) ∧
        (∀ p, nodeVal a p = none →
          nodeVal b p
            = if p ≠ [] ∧ p.length ≤ k ∧ q.take p.length = p then some amt else none) := by
  intro k
  induction k with
  | zero =>
    intro _ b hb
    rw [List.range_zero, List.foldl_nil] at hb
    rw [hb]
    have hcond : ∀ p : CatPath, ¬(p ≠ [] ∧ p.length ≤ 0 ∧ q.take p.length = p) := by
      rintro p ⟨h1, h2, _⟩
      exact h1 (List.length_eq_zero.mp (by omega))
    refine ⟨fun j hj => absurd hj (by omega), hall, hnonnil, hnd, ?_, ?_⟩
    · intro p v hv
      rw [if_neg (hcond p), add_zero]
      exact hv
    · intro p hv
      rw [if_neg (hcond p)]
      exact hv
  | succ k ih =>
    intro hk1 b hb
    have hk : k < q.length := by omega
    have hlenpre : (q.take (k + 1)).length = k + 1 := by
      rw [List.length_take]; omega
    have hprene : q.take (k + 1) ≠ [] := by
      intro he
      rw [he] at hlenpre
      simp at hlenpre
    obtain ⟨hpres, hallk, hnonnilk, hndk, hvalS, hvalN⟩ := ih (by omega) _ rfl
    rw [List.range_succ, List.foldl_append, List.foldl_cons, List.foldl_nil] at hb
    set bk := (List.range k).foldl
      (fun c i => bumpValue (get_node c (q.take (i + 1))) (q.take (i + 1)) amt) a with hbk
    have hcondk1pre : ∀ p : CatPath, p = q.take (k + 1) →
        (p ≠ [] ∧ p.length ≤ k + 1 ∧ q.take p.length = p) := by
      intro p hp
      have hplen : p.length = k + 1 := by rw [hp]; exact hlenpre
      refine ⟨by rw [hp]; exact hprene, by omega, ?_⟩
      rw [hplen, hp]
    have hcondkpre : ∀ p : CatPath, p = q.take (k + 1) →
        ¬(p ≠ [] ∧ p.length ≤ k ∧ q.take p.length = p) := by
      intro p hp
      have hplen : p.length = k + 1 := by rw [hp]; exact hlenpre
      rintro ⟨_, h2, _⟩
      omega
    by_cases hmem : q.take (k + 1) ∈ bk.map (·.name)
    · -- the node for this path end already exists, so get_node is the identity
      rw [get_node_present hallk hk hpres hmem] at hb
      have hnames : b.map (·.name) = bk.map (·.name) := by
        rw [hb]
        exact names_bumpValue _ _ _
      refine ⟨?_, ?_, ?_, ?_, ?_, ?_⟩
      · intro j hj
        rw [hnames]
        rcases Nat.lt_or_ge j k with h | h
        · exact hpres j h
        · have hjk : j = k := by omega
          subst hjk
          exact hmem
      · rw [hb]
        exact inPool_bumpValue _ _ _ hallk
      · intro n hn
        have hmm : n.name ∈ b.map (·.name) := List.mem_map.mpr ⟨n, hn, rfl⟩
        rw [hnames] at hmm
        obtain ⟨m, hm, hmn⟩ := List.mem_map.mp hmm
        rw [← hmn]
        exact hnonnilk m hm
      · rw [hnames]
        exact hndk
      · intro p v hv
        rw [hb, nodeVal_bumpValue]
        by_cases hp : p = q.take (k + 1)
        · rw [if_pos hp, hvalS p v hv, if_neg (hcondkpre p hp),
            if_pos (hcondk1pre p hp)]
          show some (v + 0 + amt) = some (v + amt)
          rw [add_zero]
        · rw [if_neg hp, hvalS p v hv,
            if_congr (cond_step hp hk) rfl rfl]
      · intro p hv
        rw [hb, nodeVal_bumpValue]
        by_cases hp : p = q.take (k + 1)
        · exfalso
          have hnone : nodeVal bk p = none := by
            rw [hvalN p hv, if_neg (hcondkpre p hp)]
          exact (nodeVal_none_iff.mp hnone) (by rw [hp]; exact hmem)
        · rw [if_neg hp, hvalN p hv,
            if_congr (cond_step hp hk) rfl rfl]
    · -- the node for this path end is created by get_node, then bumped
      obtain ⟨hgn, hgv, hgp⟩ := get_node_missing hallk hk hpres hmem
      have hnames : b.map (·.name) = bk.map (·.name) ++ [q.take (k + 1)] := by
        rw [hb, names_bumpValue]
        exact hgn
      refine ⟨?_, ?_, ?_, ?_, ?_, ?_⟩
      · intro j hj
        rw [hnames]
        rcases Nat.lt_or_ge j k with h | h
        · exact List.mem_append_left _ (hpres j h)
        · have hjk : j = k := by omega
          subst hjk
          exact List.mem_append_right _ (by simp)
      · rw [hb]
        exact inPool_bumpValue _ _ _ hgp
      · intro n hn
        have hmm : n.name ∈ b.map (·.name) := List.mem_map.mpr ⟨n, hn, rfl⟩
        rw [hnames] at hmm
        rcases List.mem_append.mp hmm with h | h
        · obtain ⟨m, hm, hmn⟩ := List.mem_map.mp h
          rw [← hmn]
          exact hnonnilk m hm
        · rw [List.mem_singleton.mp h]
          exact hprene
      · rw [hnames, List.nodup_append]
        refine ⟨hndk, List.nodup_singleton _, ?_⟩
        intro x hx hx2
        rw [List.mem_singleton.mp hx2] at hx
        exact hmem hx
      · intro p v hv
        by_cases hp : p = q.take (k + 1)
        · exfalso
          have hs := hvalS p v hv
          have hnone : nodeVal bk p = none :=
            nodeVal_none_iff.mpr (by rw [hp]; exact hmem)
          rw [hnone] at hs
          cases hs
        · rw [hb, nodeVal_bumpValue, if_neg hp, hgv p, if_neg hp, hvalS p v hv,
            if_congr (cond_step hp hk) rfl rfl]
      · intro p hv
        rw [hb, nodeVal_bumpValue]
        by_cases hp : p = q.take (k + 1)
        · rw [if_pos hp, hgv p, if_pos hp, if_pos (hcondk1pre p hp)]
          show some (0 + amt) = some amt
          rw [zero_add]
        · rw [if_neg hp, hgv p, if_neg hp, hvalN p hv,
            if_congr (cond_step hp hk) rfl rfl]

theorem cond_full {q p : CatPath} :
    (p ≠ [] ∧ p.length ≤ q.length ∧ q.take p.length = p) ↔ (p ≠ [] ∧ q.take p.length = p) := by
  constructor
  · rintro ⟨h1, _, h3⟩
    exact ⟨h1, h3⟩
  · rintro ⟨h1, h3⟩
    refine ⟨h1, ?_, h3⟩
    have hlen := congrArg List.length h3
    rw [List.length_take] at hlen
    omega

theorem sumAmt_nil (p : CatPath) : sumAmt [] p = 0 := rfl

theorem sumAmt_cons_match {tx : CatPath × ℚ} {txs : List (CatPath × ℚ)} {p : CatPath}
    (h : tx.1.take p.length = p) : sumAmt (tx :: txs) p = tx.2 + sumAmt txs p := by
  rw [sumAmt, sumAmt, List.filter_cons, if_pos (by simp [h]), List.map_cons, List.sum_cons]

theorem sumAmt_cons_nomatch {tx : CatPath × ℚ} {txs : List (CatPath × ℚ)} {p : CatPath}
    (h : ¬(tx.1.take p.length = p)) : sumAmt (tx :: txs) p = sumAmt txs p := by
  rw [sumAmt, sumAmt, List.filter_cons, if_neg (by simp [h])]

theorem ingest_aux :
    ∀ (txs : List (CatPath × ℚ)) (a : List SankeyNode),
      (∀ tx ∈ txs, tx.1 ≠ []) →
      (∀ n ∈ a, n.inPool = true) →
      (∀ n ∈ a, n.name ≠ []) →
      ((a.map (·.name)).Nodup) →
      (∀ n ∈ txs.foldl ingestTx a, n.inPool = true) ∧
      (∀ n ∈ txs.foldl ingestTx a, n.name ≠ []) ∧
      (((txs.foldl ingestTx a).map (·.name)).Nodup) ∧
      (∀ p v, nodeVal a p = some v →
        nodeVal (txs.foldl ingestTx a) p = some (v + sumAmt txs p)) ∧
      (∀ p, p ≠ [] → nodeVal a p = none →
        nodeVal (txs.foldl ingestTx a) p
          = if ∃ tx ∈ txs, tx.1.take p.length = p then some (sumAmt txs p) else none) := by
  intro txs
  induction txs with
  | nil =>
    intro a h1 h2 h3 h4
    rw [List.foldl_nil]
    refine ⟨h2, h3, h4, ?_, ?_⟩
    · intro p v hv
      rw [show sumAmt [] p = 0 from rfl, add_zero]
      exact hv
    · intro p _ hv
      rw [if_neg (by simp)]
      exact hv
  | cons tx txs ih =>
    intro a htx hall hnonnil hnd
    rw [List.foldl_cons]
    have htx1 : tx.1 ≠ [] := htx tx (by simp)
    obtain ⟨_, hallx, hnnx, hndx, hsx, hnx⟩ :=
      ingestTx_aux a tx.1 tx.2 htx1 hall hnonnil hnd tx.1.length (le_refl _)
        (ingestTx a tx) rfl
    obtain ⟨hallf, hnnf, hndf, hSf, hNf⟩ :=
      ih (ingestTx a tx) (fun t ht => htx t (by simp [ht])) hallx hnnx hndx
    refine ⟨hallf, hnnf, hndf, ?_, ?_⟩
    · intro p v hv
      have hmid := hsx p v hv
      rw [if_congr cond_full rfl rfl] at hmid
      have hp : p ≠ [] := by
        cases hl2 : lookupNode a p with
        | none =>
          rw [nodeVal, hl2] at hv
          cases hv
        | some m =>
          obtain ⟨hm, hmn⟩ := lookupNode_mem hl2
          rw [← hmn]
          exact hnonnil m hm
      by_cases hc : tx.1.take p.length = p
      · rw [if_pos ⟨hp, hc⟩] at hmid
        rw [hSf p _ hmid, sumAmt_cons_match hc]
        show some (v + tx.2 + sumAmt txs p) = some (v + (tx.2 + sumAmt txs p))
        rw [add_assoc]
      · rw [if_neg (fun h => hc h.2)] at hmid
        rw [hSf p _ hmid, sumAmt_cons_nomatch hc, add_zero]
    · intro p hp hv
      have hmid := hnx p hv
      rw [if_congr cond_full rfl rfl] at hmid
      by_cases hc : tx.1.take p.length = p
      · rw [if_pos ⟨hp, hc⟩] at hmid
        rw [hSf p _ hmid, if_pos ⟨tx, by simp, hc⟩, sumAmt_cons_match hc]
      · rw [if_neg (fun h => hc h.2)] at hmid
        rw [hNf p hp hmid]
        by_cases hex : ∃ t ∈ txs, t.1.take p.length = p
        · obtain ⟨t, htm, htc⟩ := hex
          rw [if_pos ⟨t, htm, htc⟩, if_pos ⟨t, by simp [htm], htc⟩,
            sumAmt_cons_nomatch hc]
        · rw [if_neg hex, if_neg ?_]
          rintro ⟨t, htm, htc⟩
          rcases List.mem_cons.mp htm with rfl | htm2
          · exact hc htc
          · exact hex ⟨t, htm2, htc⟩

/-- C1: ingesting any finite sequence of well-formed (category path,
amount) pairs into a fresh pool gives every node, before any scaling or
pruning, the value equal to the sum of the amounts of all ingested pairs
whose category path is that node's path or extends it by further
segments (lies in its subtree). -/
theorem c1_aggregation_invariant (txs : List (CatPath × ℚ))
    (hwf : ∀ tx ∈ txs, tx.1 ≠ []) :
    ∀ n ∈ ingest txs,
      n.value = ((txs.filter fun tx => decide (tx.1.take n.name.length = n.name)).map (·.2)).sum := by
  obtain ⟨hall, hnonnil, hnd, hS, hN⟩ :=
    ingest_aux txs [] hwf (by simp) (by simp) (by simp)
  intro n hn
  have hn2 : n ∈ txs.foldl ingestTx [] := hn
  have hlook : lookupNode (txs.foldl ingestTx []) n.name = some n :=
    lookupNode_eq_some_of_mem hnd hn2
  have hval : nodeVal (txs.foldl ingestTx []) n.name = some n.value := by
    rw [nodeVal, hlook]
    rfl
  have hne : n.name ≠ [] := hnonnil n hn2
  have hres := hN n.name hne rfl
  rw [hval] at hres
  by_cases hex : ∃ tx ∈ txs, tx.1.take n.name.length = n.name
  · rw [if_pos hex] at hres
    rw [Option.some.inj hres]
    rfl
  · rw [if_neg hex] at hres
    cases hres

/-- Witness for c1_aggregation_invariant on the worked example of the
spec. -/
theorem c1_aggregation_invariant_witness :
    (∀ tx ∈ txsExample, tx.1 ≠ []) ∧
    ∀ n ∈ ingest txsExample,
      n.value = ((txsExample.filter
        fun tx => decide (tx.1.take n.name.length = n.name)).map (·.2)).sum :=
  ⟨by decide, c1_aggregation_invariant txsExample (by decide)⟩

theorem foldl_append_congr {g g2 : CatPath → List CatPath} :
    ∀ (cs : List CatPath), (∀ c ∈ cs, g c = g2 c) →
      ∀ acc0 : List CatPath,
        cs.foldl (fun acc c => acc ++ g c) acc0 = cs.foldl (fun acc c => acc ++ g2 c) acc0 := by
  intro cs
  induction cs with
  | nil => intro _ acc0; rfl
  | cons d cs ih =>
    intro h acc0
    rw [List.foldl_cons, List.foldl_cons, h d (by simp)]
    exact ih (fun c hc => h c (by simp [hc])) _

theorem mem_foldl_append {g : CatPath → List CatPath} :
    ∀ (cs : List CatPath) (acc0 : List CatPath) (x : CatPath),
      x ∈ cs.foldl (fun acc c => acc ++ g c) acc0 ↔ x ∈ acc0 ∨ ∃ c ∈ cs, x ∈ g c := by
  intro cs
  induction cs with
  | nil => intro acc0 x; simp
  | cons d cs ih =>
    intro acc0 x
    rw [List.foldl_cons, ih]
    constructor
    · rintro (h | h)
      · rcases List.mem_append.mp h with h | h
        · exact Or.inl h
        · exact Or.inr ⟨d, by simp, h⟩
      · obtain ⟨c, hc, hx⟩ := h
        exact Or.inr ⟨c, by simp [hc], hx⟩
    · rintro (h | ⟨c, hc, hx⟩)
      · exact Or.inl (List.mem_append_left _ h)
      · rcases List.mem_cons.mp hc with rfl | hc2
        · exact Or.inl (List.mem_append_right _ hx)
        · exact Or.inr ⟨c, hc2, hx⟩

theorem reachNames_map {a : List SankeyNode} {F : SankeyNode → SankeyNode}
    (hFn : ∀ n, (F n).name = n.name) (hFc : ∀ n, (F n).children = n.children) :
    ∀ fuel p, reachNames fuel (a.map F) p = reachNames fuel a p := by
  intro fuel
  induction fuel with
  | zero => intro p; rfl
  | succ fuel ih =>
    intro p
    rw [reachNames, reachNames, lookupNode_map hFn]
    cases hl : lookupNode a p with
    | none => rfl
    | some n =>
      show ((F n).children.foldl (fun acc c => acc ++ reachNames fuel (a.map F) c) []) ++ [p]
        = (n.children.foldl (fun acc c => acc ++ reachNames fuel a c) []) ++ [p]
      rw [hFc]
      congr 1
      exact foldl_append_congr _ (fun c _ => ih c) _

theorem do_recursive_color (a : List SankeyNode) (col : String) :
    ∀ (fuel : Nat) (F : SankeyNode → SankeyNode),
      (∀ n, (F n).name = n.name) → (∀ n, (F n).children = n.children) →
      ∀ p, do_recursive (fun n => { n with color := col }) fuel (a.map F) p
        = a.map fun n =>
            if n.name ∈ reachNames fuel a p then { F n with color := col } else F n := by
  intro fuel
  induction fuel with
  | zero =>
    intro F hFn hFc p
    show a.map F = _
    refine List.map_congr_left fun x hx => ?_
    rw [if_neg (by rw [reachNames]; simp)]
  | succ fuel ih =>
    intro F hFn hFc p
    have hB : ∀ (cs : List CatPath) (G : SankeyNode → SankeyNode),
        (∀ m, (G m).name = m.name) → (∀ m, (G m).children = m.children) →
        cs.foldl (do_recursive (fun n => { n with color := col }) fuel) (a.map G)
          = a.map fun x =>
              if cs.any (fun d => decide (x.name ∈ reachNames fuel a d))
              then { G x with color := col } else G x := by
      intro cs
      induction cs with
      | nil =>
        intro G h1 h2
        rw [List.foldl_nil]
        exact (List.map_congr_left fun x hx => by simp).symm
      | cons d cs ihc =>
        intro G h1 h2
        rw [List.foldl_cons, ih G h1 h2 d]
        have h1c : ∀ m, ((fun x => if x.name ∈ reachNames fuel a d
            then { G x with color := col } else G x) m).name = m.name := by
          intro m
          by_cases hm : m.name ∈ reachNames fuel a d <;> simp [hm, h1]
        have h2c : ∀ m, ((fun x => if x.name ∈ reachNames fuel a d
            then { G x with color := col } else G x) m).children = m.children := by
          intro m
          by_cases hm : m.name ∈ reachNames fuel a d <;> simp [hm, h2]
        rw [ihc _ h1c h2c]
        refine List.map_congr_left fun x hx => ?_
        by_cases hd : x.name ∈ reachNames fuel a d <;>
          by_cases hcs : cs.any (fun e => decide (x.name ∈ reachNames fuel a e)) = true <;>
            simp [hd, hcs, List.any_cons]
    rw [do_recursive, lookupNode_map hFn]
    cases hl : lookupNode a p with
    | none =>
      show a.map F = _
      refine List.map_congr_left fun x hx => ?_
      rw [if_neg (by rw [reachNames, hl]; simp)]
    | some n =>
      show updateNode
          ((F n).children.foldl (do_recursive (fun m => { m with color := col }) fuel)
            (a.map F))
          p (fun m => { m with color := col })
        = _
      rw [hFc, hB n.children F hFn hFc]
      have hreach : reachNames (fuel + 1) a p
          = (n.children.foldl (fun acc c => acc ++ reachNames fuel a c) []) ++ [p] := by
        rw [reachNames, hl]
      have h1' : ∀ m, ((fun x => if n.children.any
          (fun d => decide (x.name ∈ reachNames fuel a d))
          then { F x with color := col } else F x) m).name = m.name := by
        intro m
        by_cases hm : n.children.any (fun d => decide (m.name ∈ reachNames fuel a d)) <;>
          simp [hm, hFn]
      rw [updateNode_map h1' p]
      refine List.map_congr_left fun x hx => ?_
      have hmemiff : x.name ∈ reachNames (fuel + 1) a p
          ↔ (n.children.any (fun d => decide (x.name ∈ reachNames fuel a d)) = true
              ∨ x.name = p) := by
        rw [hreach, List.mem_append, List.mem_singleton, List.any_eq_true]
        constructor
        · rintro (h | h)
          · obtain ⟨c, hc, hxc⟩ :=
              ((mem_foldl_append n.children [] x.name).mp h).resolve_left (by simp)
            exact Or.inl ⟨c, hc, by simpa using hxc⟩
          · exact Or.inr h
        · rintro (h | h)
          · obtain ⟨c, hc, hxc⟩ := h
            exact Or.inl ((mem_foldl_append n.children [] x.name).mpr
              (Or.inr ⟨c, hc, by simpa using hxc⟩))
          · exact Or.inr h
      by_cases hany : n.children.any (fun d => decide (x.name ∈ reachNames fuel a d)) = true
      · by_cases hp : x.name = p
        · rw [if_pos hp, if_pos hany, if_pos (hmemiff.mpr (Or.inr hp))]
        · rw [if_neg hp, if_pos hany, if_pos (hmemiff.mpr (Or.inl hany))]
      · by_cases hp : x.name = p
        · rw [if_pos hp, if_neg hany, if_pos (hmemiff.mpr (Or.inr hp))]
        · rw [if_neg hp, if_neg hany,
            if_neg (fun hmem => (hmemiff.mp hmem).elim hany hp)]

theorem colorMark_of_eq {M : CatPath → Option Nat} {n : SankeyNode} {k : Nat}
    (h : M n.name = some k) : colorMark M n = { n with color := pickColor k } := by
  rw [colorMark, h]

theorem colorMark_of_none {M : CatPath → Option Nat} {n : SankeyNode}
    (h : M n.name = none) : colorMark M n = n := by
  rw [colorMark, h]

theorem colorMark_name (M : CatPath → Option Nat) (n : SankeyNode) :
    (colorMark M n).name = n.name := by
  cases h : M n.name with
  | none => rw [colorMark_of_none h]
  | some k => rw [colorMark_of_eq h]

theorem colorMark_children (M : CatPath → Option Nat) (n : SankeyNode) :
    (colorMark M n).children = n.children := by
  cases h : M n.name with
  | none => rw [colorMark_of_none h]
  | some k => rw [colorMark_of_eq h]

theorem colorMark_inPool (M : CatPath → Option Nat) (n : SankeyNode) :
    (colorMark M n).inPool = n.inPool := by
  cases h : M n.name with
  | none => rw [colorMark_of_none h]
  | some k => rw [colorMark_of_eq h]

theorem colorMark_set (M : CatPath → Option Nat) (n : SankeyNode) (c : String) :
    { colorMark M n with color := c } = { n with color := c } := by
  cases h : M n.name with
  | none => rw [colorMark_of_none h]
  | some k => rw [colorMark_of_eq h]

theorem colorMark_congr {M M2 : CatPath → Option Nat} {n : SankeyNode}
    (h : M n.name = M2 n.name) : colorMark M n = colorMark M2 n := by
  rw [colorMark, colorMark, h]

theorem map_colorMark_none (a : List SankeyNode) :
    a.map (colorMark fun _ => none) = a := by
  induction a with
  | nil => rfl
  | cons x a ih => rw [List.map_cons, ih, colorMark_of_none rfl]

theorem foldl_docolor (a : List SankeyNode) :
    ∀ (ts : List (Nat × CatPath)) (M : CatPath → Option Nat),
      ts.foldl
        (fun b kp => do_recursive (fun n => { n with color := pickColor kp.1 }) b.length b kp.2)
        (a.map (colorMark M))
      = a.map (colorMark (markFold a a.length ts M)) := by
  intro ts
  induction ts with
  | nil => intro M; rfl
  | cons kp ts ih =>
    intro M
    rw [List.foldl_cons, List.length_map,
      do_recursive_color a (pickColor kp.1) a.length (colorMark M)
        (colorMark_name M) (colorMark_children M) kp.2]
    have hmap : (a.map fun n => if n.name ∈ reachNames a.length a kp.2
          then { colorMark M n with color := pickColor kp.1 } else colorMark M n)
        = a.map (colorMark fun c =>
            if c ∈ reachNames a.length a kp.2 then some kp.1 else M c) := by
      refine List.map_congr_left fun x hx => ?_
      by_cases hm : x.name ∈ reachNames a.length a kp.2
      · rw [if_pos hm, colorMark_set, colorMark_of_eq (by rw [if_pos hm])]
      · rw [if_neg hm]
        exact colorMark_congr (by rw [if_neg hm])
    rw [hmap, ih]
    rfl

theorem assign_colors_spec (a : List SankeyNode) :
    assign_colors a
      = a.map (colorMark (markFold a a.length (topsNames a).enum fun _ => none)) := by
  calc assign_colors a
      = ((topsNames a).enum).foldl
          (fun b kp =>
            do_recursive (fun n => { n with color := pickColor kp.1 }) b.length b kp.2)
          (a.map (colorMark fun _ => none)) := by
        rw [map_colorMark_none]; rfl
    _ = _ := foldl_docolor a (topsNames a).enum _

theorem topsNames_map {a : List SankeyNode} {F : SankeyNode → SankeyNode}
    (hFn : ∀ x, (F x).name = x.name) (hFi : ∀ x, (F x).inPool = x.inPool) :
    topsNames (a.map F) = topsNames a := by
  rw [topsNames, topsNames, List.filter_map, List.map_map]
  refine congr (congrArg List.map (funext fun x => hFn x)) ?_
  exact List.filter_congr fun x hx => by rw [Function.comp, hFn, hFi]

theorem markFold_congr {a b : List SankeyNode} {fuel : Nat}
    (h : ∀ p, reachNames fuel b p = reachNames fuel a p) :
    ∀ (ts : List (Nat × CatPath)) (M : CatPath → Option Nat),
      markFold b fuel ts M = markFold a fuel ts M := by
  intro ts
  induction ts with
  | nil => intro M; rfl
  | cons kp ts ih =>
    intro M
    show markFold b fuel ts (fun c => if c ∈ reachNames fuel b kp.2 then some kp.1 else M c)
      = markFold a fuel ts (fun c => if c ∈ reachNames fuel a kp.2 then some kp.1 else M c)
    rw [show (fun c => if c ∈ reachNames fuel b kp.2 then some kp.1 else M c)
        = (fun c => if c ∈ reachNames fuel a kp.2 then some kp.1 else M c) from by
      rw [h kp.2]]
    exact ih _

theorem colorMark_idem (M : CatPath → Option Nat) (n : SankeyNode) :
    colorMark M (colorMark M n) = colorMark M n := by
  cases h : M n.name with
  | none => rw [colorMark_of_none h, colorMark_of_none h]
  | some k =>
    rw [colorMark_of_eq h, colorMark_of_eq (n := { n with color := pickColor k }) h]

theorem assign_colors_idem (a : List SankeyNode) :
    assign_colors (assign_colors a) = assign_colors a := by
  rw [assign_colors_spec a]
  rw [assign_colors_spec (a.map (colorMark (markFold a a.length (topsNames a).enum
    fun _ => none)))]
  rw [topsNames_map (colorMark_name _) (colorMark_inPool _), List.length_map,
    markFold_congr (fun p =>
      reachNames_map (colorMark_name _) (colorMark_children _) a.length p),
    List.map_map]
  exact List.map_congr_left fun x hx => colorMark_idem _ x

theorem reach_extends {a : List SankeyNode}
    (hce : ∀ n ∈ a, ∀ c ∈ n.children,
      c.take n.name.length = n.name ∧ c.length = n.name.length + 1) :
    ∀ (fuel : Nat) (p c : CatPath), c ∈ reachNames fuel a p →
      c.take p.length = p ∧ p.length ≤ c.length := by
  intro fuel
  induction fuel with
  | zero => intro p c h; rw [reachNames] at h; cases h
  | succ fuel ih =>
    intro p c h
    rw [reachNames] at h
    cases hl : lookupNode a p with
    | none => rw [hl] at h; cases h
    | some n =>
      rw [hl] at h
      rcases List.mem_append.mp h with h | h
      · obtain ⟨d, hd, hcd⟩ :=
          ((mem_foldl_append n.children [] c).mp h).resolve_left (by simp)
        obtain ⟨hnm, hnn⟩ := lookupNode_mem hl
        obtain ⟨hdt, hdl⟩ := hce n hnm d hd
        rw [hnn] at hdt hdl
        obtain ⟨hct, hcl⟩ := ih d c hcd
        constructor
        · have h1 : (c.take d.length).take p.length = d.take p.length := by rw [hct]
          rw [List.take_take, hdl, Nat.min_eq_left (Nat.le_succ _)] at h1
          rw [h1]
          exact hdt
        · omega
      · have hcp := List.mem_singleton.mp h
        subst hcp
        exact ⟨List.take_length _, le_refl _⟩

theorem self_mem_reach {a : List SankeyNode} {p : CatPath} {n : SankeyNode}
    (hl : lookupNode a p = some n) : ∀ fuel, p ∈ reachNames (fuel + 1) a p := by
  intro fuel
  rw [reachNames, hl]
  exact List.mem_append.mpr (Or.inr (by simp))

theorem reach_chain {a : List SankeyNode} {x : SankeyNode}
    (hCC : ∀ n ∈ a, ∀ m ∈ a, m.inPool = true →
      m.name.take n.name.length = n.name → m.name.length = n.name.length + 1 →
      m.name ∈ n.children)
    (hx : x ∈ a) (hxin : x.inPool = true)
    (hchain : ∀ k, 0 < k → k < x.name.length →
      ∃ y ∈ a, y.name = x.name.take k ∧ y.inPool = true) :
    ∀ (fuel j : Nat), 0 < j → j ≤ x.name.length → x.name.length - j < fuel →
      x.name ∈ reachNames fuel a (x.name.take j) := by
  intro fuel
  induction fuel with
  | zero => intro j h1 h2 h3; exact (Nat.not_lt_zero _ h3).elim
  | succ fuel ih =>
    intro j hj hjle hfuel
    have hyj : ∃ y ∈ a, y.name = x.name.take j ∧ y.inPool = true := by
      rcases Nat.lt_or_ge j x.name.length with hlt | hge
      · exact hchain j hj hlt
      · have hje : j = x.name.length := le_antisymm hjle hge
        exact ⟨x, hx, by rw [hje, List.take_length], hxin⟩
    obtain ⟨y, hya, hyn, hyin⟩ := hyj
    have hsome : (lookupNode a (x.name.take j)).isSome :=
      lookupNode_isSome_of_mem_names (List.mem_map.mpr ⟨y, hya, hyn⟩)
    obtain ⟨n, hl⟩ := Option.isSome_iff_exists.mp hsome
    obtain ⟨hna, hnn⟩ := lookupNode_mem hl
    rcases Nat.lt_or_ge j x.name.length with hlt | hge
    · have hchild : ∃ m ∈ a, m.name = x.name.take (j + 1) ∧ m.inPool = true := by
        rcases Nat.lt_or_ge (j + 1) x.name.length with hlt2 | hge2
        · exact hchain (j + 1) (Nat.succ_pos j) hlt2
        · have hje : j + 1 = x.name.length := le_antisymm hlt hge2
          exact ⟨x, hx, by rw [hje, List.take_length], hxin⟩
      obtain ⟨m, hma, hmn, hmin⟩ := hchild
      have hlenj : (x.name.take j).length = j := by
        rw [List.length_take]; omega
      have hlenj1 : (x.name.take (j + 1)).length = j + 1 := by
        rw [List.length_take]; omega
      have hmem : m.name ∈ n.children := by
        apply hCC n hna m hma hmin
        · rw [hmn, hnn, hlenj, List.take_take, Nat.min_eq_left (Nat.le_succ _)]
        · rw [hmn, hnn, hlenj1, hlenj]
      have hrec : x.name ∈ reachNames fuel a m.name := by
        rw [hmn]
        exact ih (j + 1) (Nat.succ_pos j) (by omega) (by omega)
      rw [reachNames, hl]
      refine List.mem_append.mpr (Or.inl ?_)
      exact (mem_foldl_append n.children [] x.name).mpr (Or.inr ⟨m.name, hmem, hrec⟩)
    · have hje : j = x.name.length := le_antisymm hjle hge
      have hxeq : x.name.take j = x.name := by rw [hje, List.take_length]
      rw [hxeq] at hl ⊢
      rw [reachNames, hl]
      exact List.mem_append.mpr (Or.inr (by simp))

theorem chain_length_le {a : List SankeyNode} {x : SankeyNode}
    (hx : x ∈ a)
    (hchain : ∀ k, 0 < k → k < x.name.length →
      ∃ y ∈ a, y.name = x.name.take k ∧ y.inPool = true) :
    x.name.length ≤ a.length := by
  have hsub : (List.range x.name.length).map (fun k => x.name.take (k + 1))
      ⊆ a.map (·.name) := by
    intro c hc
    obtain ⟨k, hk, rfl⟩ := List.mem_map.mp hc
    rw [List.mem_range] at hk
    rcases Nat.lt_or_ge (k + 1) x.name.length with hlt | hge
    · obtain ⟨y, hya, hyn, _⟩ := hchain (k + 1) (Nat.succ_pos k) hlt
      exact List.mem_map.mpr ⟨y, hya, hyn⟩
    · have hke : k + 1 = x.name.length := by omega
      rw [hke, List.take_length]
      exact List.mem_map.mpr ⟨x, hx, rfl⟩
  have hnodup : ((List.range x.name.length).map fun k => x.name.take (k + 1)).Nodup := by
    refine List.Nodup.map_on ?_ (List.nodup_range _)
    intro k hk k2 hk2 he
    rw [List.mem_range] at hk hk2
    have h1 : (x.name.take (k + 1)).length = k + 1 := by rw [List.length_take]; omega
    have h2 : (x.name.take (k2 + 1)).length = k2 + 1 := by rw [List.length_take]; omega
    have := congrArg List.length he
    omega
  have hlen := List.Subperm.length_le (List.subperm_of_subset hnodup hsub)
  simpa using hlen

theorem get_of_mem_enumFrom : ∀ (ts : List CatPath) (off : Nat) (kq : Nat × CatPath),
    kq ∈ ts.enumFrom off → ts.get? (kq.1 - off) = some kq.2 ∧ off ≤ kq.1 := by
  intro ts
  induction ts with
  | nil => intro off kq h; cases h
  | cons s ts ih =>
    intro off kq h
    rcases List.mem_cons.mp h with h | h
    · subst h
      constructor
      · show (s :: ts).get? (off - off) = some s
        rw [Nat.sub_self]
        rfl
      · exact le_refl off
    · obtain ⟨h1, h2⟩ := ih (off + 1) kq h
      constructor
      · have hs : kq.1 - off = (kq.1 - (off + 1)) + 1 := by omega
        rw [hs]
        exact h1
      · omega

theorem mem_enumFrom_of_get : ∀ (ts : List CatPath) (off j : Nat) (t : CatPath),
    ts.get? j = some t → (off + j, t) ∈ ts.enumFrom off := by
  intro ts
  induction ts with
  | nil => intro off j t h; cases h
  | cons s ts ih =>
    intro off j t h
    cases j with
    | zero =>
      have hs : s = t := by simpa using h
      subst hs
      simp [List.enumFrom]
    | succ j =>
      refine List.mem_cons.mpr (Or.inr ?_)
      have h2 := ih (off + 1) j t h
      rw [show off + (j + 1) = off + 1 + j by omega]
      exact h2

theorem topsNames_nodup {a : List SankeyNode} (hnd : (a.map (·.name)).Nodup) :
    (topsNames a).Nodup := by
  rw [topsNames]
  exact List.Nodup.sublist (List.Sublist.map _ (List.filter_sublist a)) hnd

theorem mem_topsNames {a : List SankeyNode} {t : CatPath} :
    t ∈ topsNames a ↔ ∃ y ∈ a, y.name = t ∧ y.inPool = true ∧ y.name.length = 1 := by
  rw [topsNames]
  constructor
  · intro h
    obtain ⟨y, hy, rfl⟩ := List.mem_map.mp h
    obtain ⟨hy1, hy2⟩ := List.mem_filter.mp hy
    simp only [Bool.and_eq_true, decide_eq_true_eq] at hy2
    exact ⟨y, hy1, rfl, hy2.1, hy2.2⟩
  · rintro ⟨y, hya, rfl, hin, hlen⟩
    exact List.mem_map.mpr ⟨y, List.mem_filter.mpr ⟨hya, by simp [hin, hlen]⟩, rfl⟩

theorem markFold_keeps (a : List SankeyNode) (fuel : Nat) (c : CatPath) (v : Nat) :
    ∀ (ts : List (Nat × CatPath)) (M : CatPath → Option Nat),
      M c = some v → (∀ kq ∈ ts, c ∈ reachNames fuel a kq.2 → kq.1 = v) →
      markFold a fuel ts M c = some v := by
  intro ts
  induction ts with
  | nil => intro M hM _; exact hM
  | cons kq ts ih =>
    intro M hM hall
    show markFold a fuel ts
        (fun e => if e ∈ reachNames fuel a kq.2 then some kq.1 else M e) c = some v
    refine ih _ ?_ (fun kq2 h2 hc2 => hall kq2 (List.mem_cons.mpr (Or.inr h2)) hc2)
    by_cases hc : c ∈ reachNames fuel a kq.2
    · rw [if_pos hc, hall kq (List.mem_cons_self _ _) hc]
    · rw [if_neg hc]
      exact hM

theorem markFold_eval (a : List SankeyNode) (fuel : Nat) (c : CatPath)
    (kp : Nat × CatPath) :
    ∀ (ts : List (Nat × CatPath)) (M : CatPath → Option Nat),
      kp ∈ ts → c ∈ reachNames fuel a kp.2 →
      (∀ kq ∈ ts, c ∈ reachNames fuel a kq.2 → kq.1 = kp.1) →
      markFold a fuel ts M c = some kp.1 := by
  intro ts M hmem hc hall
  obtain ⟨l₁, l₂, rfl⟩ := List.append_of_mem hmem
  rw [markFold, List.foldl_append, List.foldl_cons]
  refine markFold_keeps a fuel c kp.1 l₂ _ ?_
    (fun kq h2 hc2 => hall kq (by simp [h2]) hc2)
  show (if c ∈ reachNames fuel a kp.2 then some kp.1 else _) = some kp.1
  rw [if_pos hc]

/-- C8 (amended): color assignment is idempotent, and every pool node
whose whole ancestor chain also survives in the pool receives exactly
the palette color that assign_colors hands to its top-level ancestor
(the color whose palette index is the position of that top-level key in
the iteration order of the top-level pool nodes); the top-level ancestor
itself receives that same color.  The hypotheses say the arena is
well-formed and that its children lists are complete: every pool node
whose name extends a node's name by one segment is listed among that
node's children. -/
theorem c8_coloring_idem_and_chain (a : List SankeyNode)
    (hwf : WFpool a)
    (hCC : ∀ n ∈ a, ∀ m ∈ a, m.inPool = true →
      m.name.take n.name.length = n.name → m.name.length = n.name.length + 1 →
      m.name ∈ n.children) :
    assign_colors (assign_colors a) = assign_colors a ∧
    ∀ x ∈ a, x.inPool = true →
      (∀ k, 0 < k → k < x.name.length →
        ∃ y ∈ a, y.name = x.name.take k ∧ y.inPool = true) →
      ∃ k, (topsNames a).get? k = some (x.name.take 1) ∧
        (∀ cx ∈ assign_colors a, cx.name = x.name → cx.color = pickColor k) ∧
        (∀ cy ∈ assign_colors a, cy.name = x.name.take 1 → cy.color = pickColor k) := by
  obtain ⟨hnd, hnonnil, hce, hcnd⟩ := hwf
  refine ⟨assign_colors_idem a, ?_⟩
  intro x hx hxin hchain
  have hlenpos : 0 < x.name.length := List.length_pos.mpr (hnonnil x hx)
  have hy1 : ∃ y ∈ a, y.name = x.name.take 1 ∧ y.inPool = true := by
    rcases Nat.lt_or_ge 1 x.name.length with hlt | hge
    · exact hchain 1 Nat.one_pos hlt
    · have hje : (1 : Nat) = x.name.length := le_antisymm hlenpos hge
      exact ⟨x, hx, by rw [hje, List.take_length], hxin⟩
  obtain ⟨y₁, hy₁a, hy₁n, hy₁in⟩ := hy1
  have hy₁len : y₁.name.length = 1 := by
    rw [hy₁n, List.length_take]
    omega
  have ht₁mem : x.name.take 1 ∈ topsNames a :=
    mem_topsNames.mpr ⟨y₁, hy₁a, hy₁n, hy₁in, hy₁len⟩
  obtain ⟨k, hk⟩ := List.mem_iff_get?.mp ht₁mem
  have hkp : (k, x.name.take 1) ∈ (topsNames a).enum := by
    show (k, x.name.take 1) ∈ (topsNames a).enumFrom 0
    have h0 := mem_enumFrom_of_get (topsNames a) 0 k (x.name.take 1) hk
    simpa using h0
  have huniq : ∀ kq ∈ (topsNames a).enum, ∀ c : CatPath, c.take 1 = x.name.take 1 →
      c ∈ reachNames a.length a kq.2 → kq.1 = k := by
    intro kq hkq c hc1 hcr
    have hget := get_of_mem_enumFrom (topsNames a) 0 kq (by simpa using hkq)
    have hget1 : (topsNames a).get? kq.1 = some kq.2 := by simpa using hget.1
    have hkq2 : kq.2 ∈ topsNames a := List.get?_mem hget1
    obtain ⟨y, hya, hyn, hyin, hylen⟩ := mem_topsNames.mp hkq2
    have hkq2len : kq.2.length = 1 := by rw [← hyn]; exact hylen
    have hext := (reach_extends hce a.length kq.2 c hcr).1
    rw [hkq2len] at hext
    have he2 : kq.2 = x.name.take 1 := by rw [← hext, hc1]
    have hgeq : (topsNames a).get? kq.1 = (topsNames a).get? k := by
      rw [hget1, he2, hk]
    have hlt : kq.1 < (topsNames a).length := by
      rcases List.get?_eq_some.mp hget1 with ⟨hlt, _⟩
      exact hlt
    exact List.get?_inj hlt (topsNames_nodup hnd) hgeq
  have hlena := chain_length_le hx hchain
  have hxreach : x.name ∈ reachNames a.length a (x.name.take 1) :=
    reach_chain hCC hx hxin hchain a.length 1 Nat.one_pos hlenpos (by omega)
  obtain ⟨n₁, hl₁⟩ := Option.isSome_iff_exists.mp
    (lookupNode_isSome_of_mem_names (List.mem_map.mpr ⟨y₁, hy₁a, hy₁n⟩))
  have hapos : 0 < a.length := List.length_pos.mpr (by rintro rfl; cases hx)
  have htreach : x.name.take 1 ∈ reachNames a.length a (x.name.take 1) := by
    obtain ⟨m, hm⟩ : ∃ m, a.length = m + 1 := ⟨a.length - 1, by omega⟩
    rw [hm]
    exact self_mem_reach hl₁ m
  have hMx : markFold a a.length (topsNames a).enum (fun _ => none) x.name = some k :=
    markFold_eval a a.length x.name (k, x.name.take 1) (topsNames a).enum _ hkp hxreach
      (fun kq hkq hcr => huniq kq hkq x.name rfl hcr)
  have hMt : markFold a a.length (topsNames a).enum (fun _ => none) (x.name.take 1)
      = some k :=
    markFold_eval a a.length (x.name.take 1) (k, x.name.take 1) (topsNames a).enum _ hkp
      htreach
      (fun kq hkq hcr => huniq kq hkq (x.name.take 1)
        (by rw [List.take_take, Nat.min_self]) hcr)
  refine ⟨k, hk, ?_, ?_⟩
  · intro cx hcx hcxn
    rw [assign_colors_spec] at hcx
    obtain ⟨y, hy, hyeq⟩ := List.mem_map.mp hcx
    have hyname : y.name = x.name := by
      rw [← hcxn, ← hyeq, colorMark_name]
    rw [← hyeq, colorMark_of_eq (show _ = some k from by rw [hyname]; exact hMx)]
  · intro cy hcy hcyn
    rw [assign_colors_spec] at hcy
    obtain ⟨y, hy, hyeq⟩ := List.mem_map.mp hcy
    have hyname : y.name = x.name.take 1 := by
      rw [← hcyn, ← hyeq, colorMark_name]
    rw [← hyeq, colorMark_of_eq (show _ = some k from by rw [hyname]; exact hMt)]

/-- Witness: on the four-node chain arena the hypotheses of the C8
theorem hold and its conclusion follows. -/
theorem c8_coloring_idem_and_chain_witness :
    assign_colors (assign_colors arenaChain) = assign_colors arenaChain ∧
    ∀ x ∈ arenaChain, x.inPool = true →
      (∀ k, 0 < k → k < x.name.length →
        ∃ y ∈ arenaChain, y.name = x.name.take k ∧ y.inPool = true) →
      ∃ k, (topsNames arenaChain).get? k = some (x.name.take 1) ∧
        (∀ cx ∈ assign_colors arenaChain, cx.name = x.name → cx.color = pickColor k) ∧
        (∀ cy ∈ assign_colors arenaChain, cy.name = x.name.take 1 →
          cy.color = pickColor k) :=
  c8_coloring_idem_and_chain arenaChain (by decide) (by decide)

/-- C8 counterexample to the original claim: on the orphan arena the
node A/B/C survives the purge, its top-level ancestor A is assigned the
first palette color, yet A/B/C keeps the empty color, because its
pruned parent A/B was unlinked from A's subtree before coloring ran. -/
theorem c8_orphan_keeps_no_color_cex :
    ((lookupNode (assign_colors arenaOrphan) ["A", "B", "C"]).map (·.inPool)
      = some true) ∧
    ((lookupNode (assign_colors arenaOrphan) ["A", "B", "C"]).map (·.color)
      = some "") ∧
    ((lookupNode (assign_colors arenaOrphan) ["A"]).map (·.inPool) = some true) ∧
    ((lookupNode (assign_colors arenaOrphan) ["A"]).map (·.color) = some "4E79A7") ∧
    pickColor 0 = "4E79A7" := by
  refine ⟨?_, ?_, ?_, ?_, ?_⟩ <;> decide
